import Mathlib

/-!
# minipunto: a verification development

A shallow embedding of `minipunto.c` (vector primitives, `rotate`, `setcamera`
and the main loop of `main`) and theorems about it.

Modelling conventions

* `float` values are elements of a linearly ordered field `α` with a floor
  function; the C library's `sqrt` is a parameter `sqrt : α → α`.  Theorems
  that need the analytic properties of the square root are stated for `ℝ`
  and `Real.sqrt`.  Rounding, infinities and overflow of `float` are outside
  the model; the one NaN the loop itself produces from finite data (the
  quotient `0.0f/0` when the projected radius is zero) is modelled explicitly.
* `int` values are mathematical integers; `(int) x` truncates towards zero.
* `float v[3]` is a record with components `x`, `y`, `z` for `v[0]`, `v[1]`,
  `v[2]`; the `for(i = 0; i < 3; i++)` loops are written out by component.
-/

namespace Minipunto

/-! ## Mathematical vector functions -/

/-- A `float[3]` array: `x`, `y`, `z` are the entries `[0]`, `[1]`, `[2]`. -/
structure Vec3 (α : Type) where
  x : α
  y : α
  z : α

section VectorMath

variable {α : Type} [LinearOrderedField α]

/-- Dot product (`dot`). -/
def dot (u v : Vec3 α) : α :=
  0 + u.x * v.x + u.y * v.y + u.z * v.z

/-- Cross product (`cross`); the result is returned instead of written to `uxv`. -/
def cross (u v : Vec3 α) : Vec3 α :=
  let x := u.y * v.z - u.z * v.y
  let y := u.z * v.x - u.x * v.z
  let z := u.x * v.y - u.y * v.x
  ⟨x, y, z⟩

/-- Modulus of a vector (`modulus`). -/
def modulus (sqrt : α → α) (v : Vec3 α) : α :=
  sqrt (dot v v)

/-- The vector `v` of `rotate` after `for(i = 0; i < 3; i++) v[i] += rot[i];`,
that is, just before `length2` is taken. -/
def rotateSum (sqrt : α → α) (v axis : Vec3 α) (angle : α) : Vec3 α :=
  let length1 := angle / modulus sqrt axis
  let rot : Vec3 α := ⟨length1 * axis.x, length1 * axis.y, length1 * axis.z⟩
  let rot := cross v rot
  ⟨v.x + rot.x, v.y + rot.y, v.z + rot.z⟩

/-- The divisor `length2` of `rotate`. -/
def rotateLength2 (sqrt : α → α) (v axis : Vec3 α) (angle : α) : α :=
  modulus sqrt (rotateSum sqrt v axis angle)

/-- Rotate a vector by a given angle around an axis (`rotate`); the new value
of `v` is returned. -/
def rotate (sqrt : α → α) (v axis : Vec3 α) (angle : α) : Vec3 α :=
  let length1 := modulus sqrt v
  let w := rotateSum sqrt v axis angle
  let length2 := rotateLength2 sqrt v axis angle
  ⟨w.x * (length1 / length2), w.y * (length1 / length2), w.z * (length1 / length2)⟩

/-! ## Camera -/

/-- Camera data type (`struct camera`). -/
structure Camera (α : Type) where
  location : Vec3 α
  aim : Vec3 α
  distance : α
  direction : Vec3 α
  screenx : Vec3 α
  screeny : Vec3 α

/-- The direction vector of `setcamera` after normalisation. -/
def cameraDirection (sqrt : α → α) (location aim : Vec3 α) : Vec3 α :=
  let direction : Vec3 α := ⟨aim.x - location.x, aim.y - location.y, aim.z - location.z⟩
  let distance := modulus sqrt direction
  if distance = 0 then
    { direction with x := -1 }
  else
    ⟨direction.x / distance, direction.y / distance, direction.z / distance⟩

/-- The vector `cam->screenx` of `setcamera` before it is resized. -/
def cameraScreenx (sqrt : α → α) (location aim zenith : Vec3 α) : Vec3 α :=
  let screenx := cross (cameraDirection sqrt location aim) zenith
  if modulus sqrt screenx = 0 then { screenx with y := 1 } else screenx

/-- The vector `cam->screeny` of `setcamera` before it is resized. -/
def cameraScreeny (sqrt : α → α) (location aim zenith : Vec3 α) : Vec3 α :=
  cross (cameraScreenx sqrt location aim zenith) (cameraDirection sqrt location aim)

/-- Set up camera position and orientation (`setcamera`). -/
def setcamera (sqrt : α → α) (location aim zenith : Vec3 α) : Camera α :=
  let direction0 : Vec3 α := ⟨aim.x - location.x, aim.y - location.y, aim.z - location.z⟩
  let distance := modulus sqrt direction0
  let direction := cameraDirection sqrt location aim
  let screenx := cameraScreenx sqrt location aim zenith
  let screeny := cameraScreeny sqrt location aim zenith
  let r := modulus sqrt screenx
  let screenx : Vec3 α := ⟨screenx.x / r, screenx.y / r, screenx.z / r⟩
  let r := modulus sqrt screeny
  let screeny : Vec3 α := ⟨screeny.x / r, screeny.y / r, screeny.z / r⟩
  { location := location, aim := aim, distance := distance,
    direction := direction, screenx := screenx, screeny := screeny }

end VectorMath

/-! ## Program parameters and data types of `main` -/

/-- Width of window in pixels (`WIDTH`). -/
def WIDTH : Int := 600

/-- Height of window in pixels (`HEIGHT`). -/
def HEIGHT : Int := 600

/-- RGB colour (`struct colour`). -/
structure Colour where
  r : Int
  g : Int
  b : Int
deriving DecidableEq

/-- The pixel store of the `XImage` `I` together with `zbuffer`:
`image (x, y)` is what `XGetPixel(I, x, y)` returns and `zbuffer k` is
`zbuffer[k]`. -/
structure Screen (α : Type) where
  image : Int × Int → Int
  zbuffer : Int → α

/-- The values `i = lo, lo + 1, ..., hi` run through by
`for(i = lo; i <= hi; i++)`. -/
def intRange (lo hi : Int) : List Int :=
  (List.range (hi - lo + 1).toNat).map (fun (k : Nat) => lo + (k : Int))

/-- The three channels decoded from a packed colour:
`v/65536`, `(v/256)%256`, `v%256` in C integer arithmetic. -/
def unpackColour (v : Int) : Colour :=
  { r := Int.tdiv v 65536, g := Int.tmod (Int.tdiv v 256) 256, b := Int.tmod v 256 }

/-- The test `abs(xs + i - WIDTH/2) < WIDTH/2 && abs(ys + j - HEIGHT/2) < HEIGHT/2`
on the target pixel `(x, y) = (xs + i, ys + j)`. -/
def boundsTest (x y : Int) : Prop :=
  |x - Int.tdiv WIDTH 2| < Int.tdiv WIDTH 2 ∧ |y - Int.tdiv HEIGHT 2| < Int.tdiv HEIGHT 2

instance (x y : Int) : Decidable (boundsTest x y) := by
  unfold boundsTest; infer_instance

section Rasteriser

variable {α : Type} [LinearOrderedField α] [FloorRing α]

/-- The conversion `(int) x` of a `float`: truncation towards zero. -/
def toInt (x : α) : Int :=
  if 0 ≤ x then Int.floor x else Int.ceil x

/-- Light angle factor `sqrtf(1 - (float) (i*i + j*j)/(s*s))`, capped at 1.
For `s*s = 0` the quotient is `0.0f/0`, a NaN, and so is the factor: `none`. -/
def lighting (sqrt : α → α) (s i j : Int) : Option α :=
  if s * s = 0 then none
  else
    let l := sqrt (1 - ((i * i + j * j : Int) : α) / ((s * s : Int) : α))
    some (if l > 1 then 1 else l)

/-- The pixel value passed to `XPutPixel` for colour `c`, light factor
`lighting`, at depth `depth`: the factor is modified by depth (`fade`),
clamped at zero, and the channels are truncated and packed. -/
def pixelValue (L : α) (fade : Int) (c : Colour) (depth lighting : α) : Int :=
  let lighting := lighting * (1 - (fade : α) * (depth - 1) / (2 * L - 1))
  let lighting := if lighting < 0 then 0 else lighting
  toInt ((c.r : α) * lighting) * 65536 + toInt ((c.g : α) * lighting) * 256
    + toInt ((c.b : α) * lighting)

/-- The body of the two rasterisation loops for the offset `(i, j)`.
A NaN light factor makes the comparison with the z-buffer false. -/
def drawPoint (sqrt : α → α) (L : α) (fade : Int) (c : Colour) (depth : α)
    (xs ys s : Int) (scr : Screen α) (i j : Int) : Screen α :=
  if i * i + j * j > s * s then scr
  else
    match lighting sqrt s i j with
    | none => scr
    | some lighting =>
      if boundsTest (xs + i) (ys + j) then
        if scr.zbuffer (WIDTH * (xs + i) + (ys + j)) > depth - lighting then
          { zbuffer := Function.update scr.zbuffer (WIDTH * (xs + i) + (ys + j))
              (depth - lighting),
            image := Function.update scr.image (xs + i, ys + j)
              (pixelValue L fade c depth lighting) }
        else scr
      else scr

/-- The loops `for(i=-s; i <= s; i++) for(j = -s; j <= s; j++)` over `drawPoint`. -/
def drawDisk (sqrt : α → α) (L : α) (fade : Int) (c : Colour) (depth : α)
    (xs ys s : Int) (scr : Screen α) : Screen α :=
  (intRange (-s) s).foldl
    (fun scr i => (intRange (-s) s).foldl
      (fun scr j => drawPoint sqrt L fade c depth xs ys s scr i j) scr) scr

/-- Depth of particle measured from camera: `dot(r, cam.direction)/3.732` with
`r` the camera-particle vector. -/
def particleDepth (cam : Camera α) (p : Vec3 α) : α :=
  let r : Vec3 α := ⟨p.x - cam.location.x, p.y - cam.location.y, p.z - cam.location.z⟩
  dot r cam.direction / (3732 / 1000)

/-- Screen coordinate `xs` of a particle. -/
def particleXs (cam : Camera α) (p : Vec3 α) : Int :=
  let r : Vec3 α := ⟨p.x - cam.location.x, p.y - cam.location.y, p.z - cam.location.z⟩
  toInt ((1 / 2) * (WIDTH : α) * (1 + dot r cam.screenx / particleDepth cam p))

/-- Screen coordinate `ys` of a particle. -/
def particleYs (cam : Camera α) (p : Vec3 α) : Int :=
  let r : Vec3 α := ⟨p.x - cam.location.x, p.y - cam.location.y, p.z - cam.location.z⟩
  toInt ((1 / 2) * (HEIGHT : α) * (1 - dot r cam.screeny / particleDepth cam p))

/-- Radius `s` of a particle on the screen. -/
def particleS (cam : Camera α) (p : Vec3 α) (R : α) : Int :=
  toInt ((1 / 2) * (WIDTH : α) * R / particleDepth cam p)

/-- A particle as decoded from a data line: position, radius, colour. -/
structure Particle (α : Type) where
  position : Vec3 α
  R : α
  c : Colour

/-- The drawing of one particle (the body of `if(s > 2)` after the particle
data have been decoded). -/
def drawParticle (sqrt : α → α) (cam : Camera α) (L : α) (fade : Int)
    (scr : Screen α) (p : Particle α) : Screen α :=
  let depth := particleDepth cam p.position
  if depth > 1 then
    drawDisk sqrt L fade p.c depth (particleXs cam p.position) (particleYs cam p.position)
      (particleS cam p.position p.R) scr
  else scr

/-- The body of the clearing loops:
`XPutPixel(I, i, j, background); zbuffer[WIDTH*i + j] = 2.5f*L;`. -/
def clearPoint (background : Int) (L : α) (scr : Screen α) (i j : Int) : Screen α :=
  { image := Function.update scr.image (i, j) background,
    zbuffer := Function.update scr.zbuffer (WIDTH * i + j) ((5 / 2) * L) }

/-- The loops that clear the window and z-buffer to start drawing the next
frame, `i = 0 .. WIDTH - 1` and `j = 0 .. HEIGHT - 1`. -/
@[irreducible] def clearScreen (background : Int) (L : α) (scr : Screen α) : Screen α :=
  (intRange 0 (WIDTH - 1)).foldl
    (fun scr i => (intRange 0 (HEIGHT - 1)).foldl
      (fun scr j => clearPoint background L scr i j) scr) scr

end Rasteriser

/-! ## The data stream and the C library's conversions -/

/-- What the `sscanf` calls of the main loop yield on a line, as functions of
`buffer`:
`floats` are the values converted by `"%f %f %f %f %f"` (their number is the
return value `s`; the return value `EOF` of an exhausted line counts as none),
`command` is the word stored by `"#%% %s"` if one is converted,
`camera` are the values converted by `"#%% camera %f %f %f %f %f %f %f %f %f"`,
`message` is the text stored by the `#` apostrophe format `"%250[^\n]"` if one
is converted. -/
structure Scanf (α : Type) where
  floats : List Char → List α
  command : List Char → Option (List Char)
  camera : List Char → List α
  message : List Char → Option (List Char)

/-- A frame handed to the display: the image put by `XPutImage`, the message
drawn over it and whether the recording mark is drawn. -/
structure Shown where
  image : Int × Int → Int
  msg : List Char
  recMark : Bool

/-- The variables of `main` that the main loop reads and writes, the data file
(`mddata`: its bytes and the position in it) and what the loop has output
(`shown`: frames displayed, `ppm`: screenshots written, `video`: frames sent
to the video pipe).  `running` is false once the program has returned or
exited. -/
structure State (α : Type) where
  background : Int
  L : α
  loc : Vec3 α
  aim : Vec3 α
  zen : Vec3 α
  fade : Int
  mddata : List Char
  pos : Nat
  buffer : List Char
  command : List Char
  msg : List Char
  paused : Bool
  recording : Bool
  screenshot : Bool
  nscreenshot : Nat
  filepos : Nat
  cam : Camera α
  screen : Screen α
  shown : List Shown
  ppm : List (Int × Int → Int)
  video : List (Int × Int → Int)
  running : Bool

/-- The characters `fgets` stores from the rest of the stream when at most
`n` may be stored: up to and including the first newline. -/
def takeLine : Nat → List Char → List Char
  | 0, _ => []
  | _, [] => []
  | n + 1, c :: cs => if c = '\n' then [c] else c :: takeLine n cs

/-- Read a line from file: `if(!fgets(buffer, 250, mddata)) rewind(mddata);`.
When nothing is left to read `fgets` returns `NULL` and leaves `buffer` as it
was. -/
def fgets {α : Type} (st : State α) : State α :=
  match takeLine 249 (st.mddata.drop st.pos) with
  | [] => { st with pos := 0 }
  | c :: cs => { st with buffer := c :: cs, pos := st.pos + (c :: cs).length }

section MainLoop

variable {α : Type} [LinearOrderedField α] [FloorRing α]

/-- Radius of the particle on a line with converted values `dat`:
`R = 1; if(s > 3) R = dat[3];`. -/
def particleRadius (dat : List α) : α :=
  if dat.length > 3 then dat.getD 3 1 else 1

/-- Colour of the particle on a line with converted values `dat`:
`c = {250, 250, 250}; if(s > 4) { c.r = ((int) dat[4])/65536; ... }`. -/
def particleColour (dat : List α) : Colour :=
  if dat.length > 4 then unpackColour (toInt (dat.getD 4 0)) else ⟨250, 250, 250⟩

/-- The particle decoded from the converted values `dat` of a line. -/
def particleOf (dat : List α) : Particle α :=
  { position := ⟨dat.getD 0 0, dat.getD 1 0, dat.getD 2 0⟩,
    R := particleRadius dat, c := particleColour dat }

/-- The variable that the `k`-th conversion of the camera command writes,
given the converted values `fs`: the value if there is a `k`-th one, else the
old content. -/
def assigned (fs : List α) (k : Nat) (old : α) : α :=
  fs.getD k old

/-- The `#% camera` magic command: the converted values are stored in
`loc[0..2]`, `aim[0..2]`, `zen[0..2]`, in this order. -/
def cameraCommand (fs : List α) (st : State α) : State α :=
  { st with
    loc := ⟨assigned fs 0 st.loc.x, assigned fs 1 st.loc.y, assigned fs 2 st.loc.z⟩,
    aim := ⟨assigned fs 3 st.aim.x, assigned fs 4 st.aim.y, assigned fs 5 st.aim.z⟩,
    zen := ⟨assigned fs 6 st.zen.x, assigned fs 7 st.zen.y, assigned fs 8 st.zen.z⟩ }

/-- The branch `else if(buffer[0]=='#')`: magic commands and text. -/
def commentLine (sc : Scanf α) (st : State α) : State α :=
  if st.buffer.get? 1 = some '%' then
    let st := { st with command := (sc.command st.buffer).getD st.command }
    if st.command = "camera".toList then cameraCommand (sc.camera st.buffer) st else st
  else if st.buffer.get? 1 = some (Char.ofNat 39) then
    { st with msg := (sc.message st.buffer).getD st.msg }
  else st

/-- The last `else` branch of the main loop: display the frame, keep or store
the stream position, reset the camera, write the screenshot and the video
frame, clear the window and the z-buffer. -/
def frameBoundary (sqrt : α → α) (st : State α) : State α :=
  let st := { st with shown := st.shown ++ [Shown.mk st.screen.image st.msg st.recording] }
  let st := if st.paused then { st with pos := st.filepos } else { st with filepos := st.pos }
  let st := { st with cam := setcamera sqrt st.loc st.aim st.zen }
  let st := if st.screenshot then
      { st with ppm := st.ppm ++ [st.screen.image], nscreenshot := st.nscreenshot + 1,
                screenshot := false }
    else st
  let st := if st.recording then { st with video := st.video ++ [st.screen.image] } else st
  { st with screen := clearScreen st.background st.L st.screen }

/-- The part of one iteration of the main loop that works on `buffer`:
particle, comment, or frame. -/
def processLine (sqrt : α → α) (sc : Scanf α) (st : State α) : State α :=
  let dat := sc.floats st.buffer
  if dat.length > 2 then
    { st with screen := drawParticle sqrt st.cam st.L st.fade st.screen (particleOf dat) }
  else if st.buffer.head? = some '#' then commentLine sc st
  else frameBoundary sqrt st

/-- Key presses the event loop tells apart (upper and lower case letters
act alike); `k0` carries whether the video pipe could be opened. -/
inductive Key where
  | plus | minus | left | right | up | down
  | w | s | a | d | z | x | f | r
  | k1 | k2 | k3 | k4
  | b | p | c | period | o
  | k0 (opened : Bool)
  | quit
  | other

/-- Componentwise `u[i] + k*v[i]`. -/
def addScaled (u : Vec3 α) (k : α) (v : Vec3 α) : Vec3 α :=
  ⟨u.x + k * v.x, u.y + k * v.y, u.z + k * v.z⟩

/-- The turn of `aim` about `loc`: `aim[i] -= loc[i]; rotate(aim, axis, angle);
aim[i] += loc[i];`. -/
def turnAim (sqrt : α → α) (loc aim axis : Vec3 α) (angle : α) : Vec3 α :=
  let a : Vec3 α := ⟨aim.x - loc.x, aim.y - loc.y, aim.z - loc.z⟩
  let a := rotate sqrt a axis angle
  ⟨a.x + loc.x, a.y + loc.y, a.z + loc.z⟩

/-- The `rotate(aim, ...)` guarded by `if(modulus(aim) != 0)`. -/
def rotateAim (sqrt : α → α) (aim axis : Vec3 α) (angle : α) : Vec3 α :=
  if modulus sqrt aim ≠ 0 then rotate sqrt aim axis angle else aim

/-- One case of `switch(key)`. -/
def handleKey (sqrt : α → α) (st : State α) : Key → State α
  | .plus => { st with
      loc := ⟨st.loc.x * (99 / 100), st.loc.y * (99 / 100), st.loc.z * (99 / 100)⟩,
      aim := ⟨st.aim.x * (99 / 100), st.aim.y * (99 / 100), st.aim.z * (99 / 100)⟩ }
  | .minus => { st with
      loc := ⟨st.loc.x / (99 / 100), st.loc.y / (99 / 100), st.loc.z / (99 / 100)⟩,
      aim := ⟨st.aim.x / (99 / 100), st.aim.y / (99 / 100), st.aim.z / (99 / 100)⟩ }
  | .left => { st with
      loc := rotate sqrt st.loc st.zen (7 / 100),
      aim := rotateAim sqrt st.aim st.zen (7 / 100) }
  | .right => { st with
      loc := rotate sqrt st.loc st.zen (-(7 / 100)),
      aim := rotateAim sqrt st.aim st.zen (-(7 / 100)) }
  | .up => { st with
      zen := rotate sqrt st.zen st.cam.screenx (7 / 100),
      loc := rotate sqrt st.loc st.cam.screenx (7 / 100),
      aim := rotateAim sqrt st.aim st.cam.screenx (7 / 100) }
  | .down => { st with
      zen := rotate sqrt st.zen st.cam.screenx (-(7 / 100)),
      loc := rotate sqrt st.loc st.cam.screenx (-(7 / 100)),
      aim := rotateAim sqrt st.aim st.cam.screenx (-(7 / 100)) }
  | .w => { st with
      loc := addScaled st.loc (1 / 10) st.cam.direction,
      aim := addScaled st.aim (1 / 10) st.cam.direction }
  | .s => { st with
      loc := addScaled st.loc (-(1 / 10)) st.cam.direction,
      aim := addScaled st.aim (-(1 / 10)) st.cam.direction }
  | .a => { st with aim := turnAim sqrt st.loc st.aim st.zen (-(5 / 100)) }
  | .d => { st with aim := turnAim sqrt st.loc st.aim st.zen (5 / 100) }
  | .z => { st with
      loc := addScaled st.loc (-(1 / 10)) st.cam.screenx,
      aim := addScaled st.aim (-(1 / 10)) st.cam.screenx }
  | .x => { st with
      loc := addScaled st.loc (1 / 10) st.cam.screenx,
      aim := addScaled st.aim (1 / 10) st.cam.screenx }
  | .f => { st with
      loc := addScaled st.loc (-(1 / 10)) st.cam.screeny,
      aim := addScaled st.aim (-(1 / 10)) st.cam.screeny }
  | .r => { st with
      loc := addScaled st.loc (1 / 10) st.cam.screeny,
      aim := addScaled st.aim (1 / 10) st.cam.screeny }
  | .k1 => { st with aim := turnAim sqrt st.loc st.aim st.cam.screenx (-(5 / 100)) }
  | .k2 => { st with aim := turnAim sqrt st.loc st.aim st.cam.screenx (5 / 100) }
  | .k3 => { st with zen := rotate sqrt st.zen st.cam.direction (-(7 / 100)) }
  | .k4 => { st with zen := rotate sqrt st.zen st.cam.direction (7 / 100) }
  | .b => { st with pos := 0, filepos := 0 }
  | .p => { st with paused := !st.paused }
  | .c => st
  | .period => { st with fade := 1 - st.fade }
  | .o => { st with screenshot := true }
  | .k0 opened =>
      if st.recording then { st with recording := false }
      else { st with recording := true, running := opened }
  | .quit => { st with running := false }
  | .other => st

/-- The event loop `while(XPending(d)>0)` on the queued key presses; nothing
more is handled once the program has returned or exited. -/
def handleKeys (sqrt : α → α) (st : State α) (keys : List Key) : State α :=
  keys.foldl (fun st k => if st.running then handleKey sqrt st k else st) st

/-- One iteration of the main loop, `keys` being the key presses queued when
the event loop is reached. -/
def step (sqrt : α → α) (sc : Scanf α) (keys : List Key) (st : State α) : State α :=
  if st.running then handleKeys sqrt (processLine sqrt sc (fgets st)) keys else st

/-- The state after `n` iterations of the main loop without key presses. -/
def run (sqrt : α → α) (sc : Scanf α) : Nat → State α → State α
  | 0, st => st
  | n + 1, st => run sqrt sc n (step sqrt sc [] st)

/-- The line the next iteration works on: `buffer` after its `fgets`. -/
def lineRead (st : State α) : List Char :=
  (fgets st).buffer

/-- The lines the next `n` iterations without key presses work on. -/
def linesRead (sqrt : α → α) (sc : Scanf α) : Nat → State α → List (List Char)
  | 0, _ => []
  | n + 1, st => lineRead st :: linesRead sqrt sc n (step sqrt sc [] st)

/-- A line on which the main loop takes its last `else` branch: fewer than
three values converted and no `#` in front. -/
def isBoundary (sc : Scanf α) (line : List Char) : Prop :=
  ¬ (sc.floats line).length > 2 ∧ line.head? ≠ some '#'

end MainLoop

/-! ## The conversions on plain decimal input

The theorems on the main loop hold for every `Scanf`.  For the worked examples
the conversions are spelled out for lines whose numbers are plain decimal
literals (optional sign, digits, optional point and digits).  -/

/-- A decimal literal: the number `mant / 10 ^ scale`. -/
structure Dec where
  mant : Int
  scale : Nat
deriving DecidableEq

/-- The value of a decimal literal. -/
def Dec.toScalar {α : Type} [LinearOrderedField α] (d : Dec) : α :=
  (d.mant : α) / (10 : α) ^ d.scale

/-- White space as `sscanf` skips it. -/
def isSpace (c : Char) : Bool :=
  c = ' ' || c = '\t' || c = '\n' || c = '\r' || c.toNat = 11 || c.toNat = 12

/-- Drop leading white space. -/
def skipSpace (cs : List Char) : List Char :=
  cs.dropWhile isSpace

/-- Read a run of digits: the number read so far, the count of digits read
so far, and on return also the rest of the input. -/
def scanDigits : List Char → Nat → Nat → Nat × Nat × List Char
  | [], acc, n => (acc, n, [])
  | c :: cs, acc, n =>
    if c.isDigit then scanDigits cs (10 * acc + (c.toNat - 48)) (n + 1)
    else (acc, n, c :: cs)

/-- Read an optional sign. -/
def scanSign : List Char → Bool × List Char
  | [] => (false, [])
  | c :: cs => if c = '-' then (true, cs) else if c = '+' then (false, cs) else (false, c :: cs)

/-- Read the digits after a decimal point, if there is a point. -/
def scanFraction : List Char → Nat × Nat × List Char
  | [] => (0, 0, [])
  | c :: cs => if c = '.' then scanDigits cs 0 0 else (0, 0, c :: cs)

/-- One `%f` conversion on plain decimal input: the literal and the rest of
the input, or failure when no digit is found. -/
def scanFloat (cs : List Char) : Option (Dec × List Char) :=
  let (neg, cs) := scanSign (skipSpace cs)
  let (ip, ni, cs) := scanDigits cs 0 0
  let (fp, nf, cs) := scanFraction cs
  if ni + nf = 0 then none
  else
    let m : Int := (ip : Int) * 10 ^ nf + (fp : Int)
    some (⟨if neg then -m else m, nf⟩, cs)

/-- Up to `n` conversions `%f` in a row, stopping at the first that fails. -/
def scanFloats : Nat → List Char → List Dec
  | 0, _ => []
  | n + 1, cs =>
    match scanFloat cs with
    | none => []
    | some (d, rest) => d :: scanFloats n rest

/-- Match the characters of a literal of the format, if the input starts
with them. -/
def dropLiteral : List Char → List Char → Option (List Char)
  | [], cs => some cs
  | _ :: _, [] => none
  | l :: ls, c :: cs => if l = c then dropLiteral ls cs else none

/-- The conversion of `"#%% %s"`: the word after `#%`. -/
def scanCommand (cs : List Char) : Option (List Char) :=
  match dropLiteral "#%".toList cs with
  | none => none
  | some rest =>
    let word := (skipSpace rest).takeWhile (fun c => !isSpace c)
    if word = [] then none else some word

/-- The conversions of `"#%% camera %f %f %f %f %f %f %f %f %f"`. -/
def scanCamera (cs : List Char) : List Dec :=
  match dropLiteral "#%".toList cs with
  | none => []
  | some rest =>
    match dropLiteral "camera".toList (skipSpace rest) with
    | none => []
    | some rest => scanFloats 9 rest

/-- The conversion of the message format: after `#`, an apostrophe and white
space, up to 250 characters other than a newline. -/
def scanMessage (cs : List Char) : Option (List Char) :=
  match dropLiteral ['#', Char.ofNat 39] cs with
  | none => none
  | some rest =>
    let text := ((skipSpace rest).takeWhile (fun c => c != '\n')).take 250
    if text = [] then none else some text

/-- The conversions of the main loop on plain decimal input. -/
def plainScanf (α : Type) [LinearOrderedField α] : Scanf α :=
  { floats := fun b => (scanFloats 5 b).map Dec.toScalar,
    command := scanCommand,
    camera := fun b => (scanCamera b).map Dec.toScalar,
    message := scanMessage }

/-- The state of `main` when the main loop is entered: the options, the data
file, `filepos = ftell(mddata)` at the start of the file, the camera set up,
and the contents that `buffer`, `command`, the image and the z-buffer happen
to have (they are not initialised). -/
def initial {α : Type} [LinearOrderedField α] (sqrt : α → α) (background : Int) (L : α)
    (loc aim zen : Vec3 α) (mddata buffer command : List Char) (screen : Screen α) :
    State α :=
  { background := background, L := L, loc := loc, aim := aim, zen := zen, fade := 1,
    mddata := mddata, pos := 0, buffer := buffer, command := command, msg := [],
    paused := false, recording := false, screenshot := false, nscreenshot := 0,
    filepos := 0, cam := setcamera sqrt loc aim zen, screen := screen,
    shown := [], ppm := [], video := [], running := true }

/-- The state in which the main loop is entered with the default options
(`background = 0`, `L = 40`, camera at `(L, 0, 0)` looking at the origin,
zenith `(0, 0, 1)`) on the data file `mddata`, the uninitialised arrays
holding zeros. -/
def defaultState {α : Type} [LinearOrderedField α] (sqrt : α → α) (mddata : List Char) :
    State α :=
  initial sqrt 0 40 ⟨40, 0, 0⟩ ⟨0, 0, 0⟩ ⟨0, 0, 1⟩ mddata [] []
    { image := fun _ => 0, zbuffer := fun _ => 0 }

/-! ## Notions used to state the theorems on the rasteriser -/

section RasteriserNotions

variable {α : Type} [LinearOrderedField α] [FloorRing α]

/-- The light factor with which the disk of centre `(xs, ys)` and radius `s`
reaches the pixel `(x, y)`: the offset `(x - xs, y - ys)` is run through by
both loops, is not rejected by the circle test, and its light factor is a
number. -/
def diskLight (sqrt : α → α) (xs ys s x y : Int) : Option α :=
  if (x - xs) ∈ intRange (-s) s ∧ (y - ys) ∈ intRange (-s) s ∧
      ¬ ((x - xs) * (x - xs) + (y - ys) * (y - ys) > s * s) then
    lighting sqrt s (x - xs) (y - ys)
  else none

/-- The light factor with which particle `p`, seen by `cam`, reaches the pixel
`(x, y)`, if it is drawn (`depth > 1`) and its disk reaches the pixel. -/
def particleLight (sqrt : α → α) (cam : Camera α) (p : Particle α) (x y : Int) : Option α :=
  if particleDepth cam p.position > 1 then
    diskLight sqrt (particleXs cam p.position) (particleYs cam p.position)
      (particleS cam p.position p.R) x y
  else none

/-- What `drawPoint` at offset `(i, j)` does to the pair (pixel value,
z-buffer cell) of the pixel it targets, when that pixel passes the bounds
test. -/
def pointEffect (sqrt : α → α) (L : α) (fade : Int) (c : Colour) (depth : α)
    (s i j : Int) (v : Int × α) : Int × α :=
  if i * i + j * j > s * s then v
  else
    match lighting sqrt s i j with
    | none => v
    | some l => if v.2 > depth - l then (pixelValue L fade c depth l, depth - l) else v

/-- The pair (pixel value, z-buffer cell) of the pixel `(x, y)`. -/
def pixelView (scr : Screen α) (x y : Int) : Int × α :=
  (scr.image (x, y), scr.zbuffer (WIDTH * x + y))

/-- A z-buffer candidate of particle `p` for cell `k`: the scalar
`depth - lighting` of a disk point of `p` that targets a pixel with index `k`
and passes the bounds test. -/
def IsCandidate (sqrt : α → α) (cam : Camera α) (p : Particle α) (k : Int) (c : α) : Prop :=
  particleDepth cam p.position > 1 ∧
  ∃ i j : Int, ∃ l : α,
    i ∈ intRange (-(particleS cam p.position p.R)) (particleS cam p.position p.R) ∧
    j ∈ intRange (-(particleS cam p.position p.R)) (particleS cam p.position p.R) ∧
    ¬ (i * i + j * j > particleS cam p.position p.R * particleS cam p.position p.R) ∧
    boundsTest (particleXs cam p.position + i) (particleYs cam p.position + j) ∧
    WIDTH * (particleXs cam p.position + i) + (particleYs cam p.position + j) = k ∧
    lighting sqrt (particleS cam p.position p.R) i j = some l ∧
    c = particleDepth cam p.position - l

/-- The drawing of a sequence of particles, one after the other. -/
def drawParticles (sqrt : α → α) (cam : Camera α) (L : α) (fade : Int)
    (scr : Screen α) (ps : List (Particle α)) : Screen α :=
  ps.foldl (drawParticle sqrt cam L fade) scr

end RasteriserNotions

/-- The camera that `setcamera` derives from the default options: location
`(40, 0, 0)`, aim the origin, zenith `(0, 0, 1)`. -/
def defaultCamera {α : Type} [LinearOrderedField α] : Camera α :=
  { location := ⟨40, 0, 0⟩, aim := ⟨0, 0, 0⟩, distance := 40,
    direction := ⟨-1, 0, 0⟩, screenx := ⟨0, 1, 0⟩, screeny := ⟨0, 0, 1⟩ }

/-- The particle of the data line `32.536 -0.997 -0.003 1.001`: seen by the
default camera it has depth 2, centre `(150, 300)` and radius 150 on the
screen. -/
def nearParticle {α : Type} [LinearOrderedField α] : Particle α :=
  { position := ⟨32536 / 1000, -(997 / 1000), -(3 / 1000)⟩, R := 1001 / 1000,
    c := ⟨250, 250, 250⟩ }

/-- The particle of the data line `31.4164 -0.22655 -0.00345`: seen by the
default camera it has depth 2.3, centre `(270, 300)` and radius 130 on the
screen. -/
def farParticle {α : Type} [LinearOrderedField α] : Particle α :=
  { position := ⟨314164 / 10000, -(22655 / 100000), -(345 / 100000)⟩, R := 1,
    c := ⟨250, 250, 250⟩ }

/-- A screen whose image and z-buffer hold zeros. -/
def zeroScreen {α : Type} [LinearOrderedField α] : Screen α :=
  { image := fun _ => 0, zbuffer := fun _ => 0 }

/-- The particle of the data line `32.536 -2 -0.003 1.001`: seen by the
default camera it has depth 2, centre `(0, 300)` and radius 150 on the
screen. -/
def edgeParticle {α : Type} [LinearOrderedField α] : Particle α :=
  { position := ⟨32536 / 1000, -2, -(3 / 1000)⟩, R := 1001 / 1000,
    c := ⟨250, 250, 250⟩ }

/-- The nine camera inputs in the order in which the camera command stores
them: `loc[0..2]`, `aim[0..2]`, `zen[0..2]`. -/
def cameraInputs {α : Type} (st : State α) : List α :=
  [st.loc.x, st.loc.y, st.loc.z, st.aim.x, st.aim.y, st.aim.z, st.zen.x, st.zen.y, st.zen.z]

instance {α : Type} [LinearOrderedField α] [FloorRing α] (sc : Scanf α) (line : List Char) :
    Decidable (isBoundary sc line) := by
  unfold isBoundary; infer_instance

/-- The part of the state that decides which lines are read: the file, the
position in it, the bookmark, the paused flag and whether the loop runs. -/
def streamOf {α : Type} (st : State α) : List Char × Nat × Nat × Bool × Bool :=
  (st.mddata, st.pos, st.filepos, st.paused, st.running)

/-- Two states from which the same lines are read: they agree on `streamOf`,
and on `buffer` unless the next read succeeds and overwrites it. -/
def SameStream {α : Type} (a b : State α) : Prop :=
  streamOf a = streamOf b ∧ (a.buffer = b.buffer ∨ a.pos < a.mddata.length)

/-- The state `defaultState` after the pause key has been pressed. -/
def pausedState {α : Type} [LinearOrderedField α] [FloorRing α] (sqrt : α → α)
    (mddata : List Char) : State α :=
  handleKey sqrt (defaultState sqrt mddata) Key.p

/-! ## Theorems -/

set_option linter.unusedSectionVars false

section RealLemmas

theorem dot_self_nonneg (v : Vec3 ℝ) : 0 ≤ dot v v := by
  unfold dot
  nlinarith [mul_self_nonneg v.x, mul_self_nonneg v.y, mul_self_nonneg v.z]

theorem dot_self_pos (v : Vec3 ℝ) (h : v.x ≠ 0 ∨ v.y ≠ 0 ∨ v.z ≠ 0) : 0 < dot v v := by
  unfold dot
  rcases h with h | h | h
  · have := mul_self_pos.mpr h
    nlinarith [mul_self_nonneg v.x, mul_self_nonneg v.y, mul_self_nonneg v.z]
  · have := mul_self_pos.mpr h
    nlinarith [mul_self_nonneg v.x, mul_self_nonneg v.y, mul_self_nonneg v.z]
  · have := mul_self_pos.mpr h
    nlinarith [mul_self_nonneg v.x, mul_self_nonneg v.y, mul_self_nonneg v.z]

theorem modulus_scale (w : Vec3 ℝ) (k : ℝ) (hk : 0 ≤ k) :
    modulus Real.sqrt ⟨w.x * k, w.y * k, w.z * k⟩ = modulus Real.sqrt w * k := by
  unfold modulus
  have h : dot (⟨w.x * k, w.y * k, w.z * k⟩ : Vec3 ℝ) ⟨w.x * k, w.y * k, w.z * k⟩
      = dot w w * (k * k) := by
    unfold dot; ring
  rw [h, Real.sqrt_mul (dot_self_nonneg w), Real.sqrt_mul_self hk]

theorem rotateSum_dot (v axis : Vec3 ℝ) (angle : ℝ) :
    dot v v ≤ dot (rotateSum Real.sqrt v axis angle) (rotateSum Real.sqrt v axis angle) := by
  simp only [rotateSum, cross, dot]
  set k := angle / modulus Real.sqrt axis
  nlinarith [mul_self_nonneg (v.y * (k * axis.z) - v.z * (k * axis.y)),
    mul_self_nonneg (v.z * (k * axis.x) - v.x * (k * axis.z)),
    mul_self_nonneg (v.x * (k * axis.y) - v.y * (k * axis.x))]

end RealLemmas

/-- C1: over the reals, for a non-zero vector `v`, a non-zero axis and any
angle, `rotate` returns a vector with exactly the modulus of `v`, and the
divisor `length2` of the rescale is not zero. -/
theorem rotate_preserves_modulus (v axis : Vec3 ℝ) (angle : ℝ)
    (hv : v.x ≠ 0 ∨ v.y ≠ 0 ∨ v.z ≠ 0)
    (_haxis : axis.x ≠ 0 ∨ axis.y ≠ 0 ∨ axis.z ≠ 0) :
    modulus Real.sqrt (rotate Real.sqrt v axis angle) = modulus Real.sqrt v ∧
      rotateLength2 Real.sqrt v axis angle ≠ 0 := by
  have hpos : 0 < dot (rotateSum Real.sqrt v axis angle) (rotateSum Real.sqrt v axis angle) :=
    lt_of_lt_of_le (dot_self_pos v hv) (rotateSum_dot v axis angle)
  have hl2 : 0 < rotateLength2 Real.sqrt v axis angle := by
    unfold rotateLength2 modulus
    exact Real.sqrt_pos.mpr hpos
  refine ⟨?_, ne_of_gt hl2⟩
  have hl1 : 0 ≤ modulus Real.sqrt v := Real.sqrt_nonneg _
  have hk : 0 ≤ modulus Real.sqrt v / rotateLength2 Real.sqrt v axis angle :=
    div_nonneg hl1 (le_of_lt hl2)
  unfold rotate
  simp only []
  rw [modulus_scale _ _ hk]
  change rotateLength2 Real.sqrt v axis angle * _ = _
  field_simp

/-- C1 at `v = (1, 0, 0)`, `axis = (0, 0, 1)`, `angle = 1`. -/
theorem rotate_preserves_modulus_witness :
    modulus Real.sqrt (rotate Real.sqrt (⟨1, 0, 0⟩ : Vec3 ℝ) ⟨0, 0, 1⟩ 1)
        = modulus Real.sqrt (⟨1, 0, 0⟩ : Vec3 ℝ) ∧
      rotateLength2 Real.sqrt (⟨1, 0, 0⟩ : Vec3 ℝ) ⟨0, 0, 1⟩ 1 ≠ 0 :=
  rotate_preserves_modulus ⟨1, 0, 0⟩ ⟨0, 0, 1⟩ 1 (Or.inl one_ne_zero)
    (Or.inr (Or.inr one_ne_zero))

section CameraLemmas

theorem vec3_ne_iff {α : Type} (u v : Vec3 α) :
    u ≠ v ↔ (u.x ≠ v.x ∨ u.y ≠ v.y ∨ u.z ≠ v.z) := by
  cases u; cases v
  simp only [ne_eq, Vec3.mk.injEq]
  tauto

theorem modulus_div (w : Vec3 ℝ) (r : ℝ) (hr : 0 < r) :
    modulus Real.sqrt ⟨w.x / r, w.y / r, w.z / r⟩ = modulus Real.sqrt w / r := by
  have h := modulus_scale w r⁻¹ (le_of_lt (inv_pos.mpr hr))
  simpa [div_eq_mul_inv] using h

theorem modulus_normalised (w : Vec3 ℝ) (h : 0 < dot w w) :
    modulus Real.sqrt
      ⟨w.x / modulus Real.sqrt w, w.y / modulus Real.sqrt w, w.z / modulus Real.sqrt w⟩ = 1 := by
  have hr : 0 < modulus Real.sqrt w := Real.sqrt_pos.mpr h
  rw [modulus_div w _ hr]
  exact div_self (ne_of_gt hr)

theorem dot_div_div (u v : Vec3 ℝ) (a b : ℝ) :
    dot (⟨u.x / a, u.y / a, u.z / a⟩ : Vec3 ℝ) ⟨v.x / b, v.y / b, v.z / b⟩
      = dot u v / (a * b) := by
  unfold dot
  by_cases ha : a = 0
  · simp [ha]
  by_cases hb : b = 0
  · simp [hb]
  field_simp

theorem dot_div_left (u v : Vec3 ℝ) (a : ℝ) :
    dot (⟨u.x / a, u.y / a, u.z / a⟩ : Vec3 ℝ) v = dot u v / a := by
  unfold dot
  by_cases ha : a = 0
  · simp [ha]
  field_simp

theorem dot_cross_left (u v : Vec3 ℝ) : dot (cross u v) u = 0 := by
  simp only [dot, cross]; ring

theorem dot_cross_right (u v : Vec3 ℝ) : dot (cross u v) v = 0 := by
  simp only [dot, cross]; ring

theorem dot_cross_self (u v : Vec3 ℝ) :
    dot (cross u v) (cross u v) = dot u u * dot v v - dot u v * dot u v := by
  simp only [dot, cross]; ring

/-- Under the hypotheses of C2 the first branch of neither test of `setcamera`
is taken: the direction is the normalised difference and `screenx` is the
plain cross product. -/
theorem setcamera_regular (location aim zenith : Vec3 ℝ)
    (hne : location ≠ aim)
    (hcross : cross (⟨aim.x - location.x, aim.y - location.y, aim.z - location.z⟩ : Vec3 ℝ)
      zenith ≠ ⟨0, 0, 0⟩) :
    let d : Vec3 ℝ := ⟨aim.x - location.x, aim.y - location.y, aim.z - location.z⟩
    0 < dot d d ∧
    cameraDirection Real.sqrt location aim
      = ⟨d.x / modulus Real.sqrt d, d.y / modulus Real.sqrt d, d.z / modulus Real.sqrt d⟩ ∧
    dot (cameraDirection Real.sqrt location aim) (cameraDirection Real.sqrt location aim) = 1 ∧
    cameraScreenx Real.sqrt location aim zenith
      = cross (cameraDirection Real.sqrt location aim) zenith ∧
    0 < dot (cameraScreenx Real.sqrt location aim zenith)
      (cameraScreenx Real.sqrt location aim zenith) := by
  intro d
  have hd : 0 < dot d d := by
    apply dot_self_pos
    rw [vec3_ne_iff] at hne
    rcases hne with h | h | h
    · exact Or.inl (sub_ne_zero.mpr (Ne.symm h))
    · exact Or.inr (Or.inl (sub_ne_zero.mpr (Ne.symm h)))
    · exact Or.inr (Or.inr (sub_ne_zero.mpr (Ne.symm h)))
  have hm : 0 < modulus Real.sqrt d := Real.sqrt_pos.mpr hd
  have hdir : cameraDirection Real.sqrt location aim
      = ⟨d.x / modulus Real.sqrt d, d.y / modulus Real.sqrt d, d.z / modulus Real.sqrt d⟩ := by
    unfold cameraDirection
    simp only []
    rw [if_neg (ne_of_gt hm)]
  have hunit : dot (cameraDirection Real.sqrt location aim)
      (cameraDirection Real.sqrt location aim) = 1 := by
    rw [hdir, dot_div_div]
    have : modulus Real.sqrt d * modulus Real.sqrt d = dot d d :=
      Real.mul_self_sqrt (le_of_lt hd)
    rw [this]
    exact div_self (ne_of_gt hd)
  have hc : 0 < dot (cross d zenith) (cross d zenith) := by
    apply dot_self_pos
    have := (vec3_ne_iff _ _).mp hcross
    simpa using this
  have hsx0 : dot (cross (cameraDirection Real.sqrt location aim) zenith)
      (cross (cameraDirection Real.sqrt location aim) zenith)
      = dot (cross d zenith) (cross d zenith) / (modulus Real.sqrt d * modulus Real.sqrt d) := by
    rw [hdir]
    simp only [dot, cross]
    field_simp
  have hsx0pos : 0 < dot (cross (cameraDirection Real.sqrt location aim) zenith)
      (cross (cameraDirection Real.sqrt location aim) zenith) := by
    rw [hsx0]
    exact div_pos hc (mul_pos hm hm)
  have hsx : cameraScreenx Real.sqrt location aim zenith
      = cross (cameraDirection Real.sqrt location aim) zenith := by
    unfold cameraScreenx
    simp only []
    rw [if_neg]
    exact ne_of_gt (Real.sqrt_pos.mpr hsx0pos)
  refine ⟨hd, hdir, hunit, hsx, ?_⟩
  rw [hsx]
  exact hsx0pos

end CameraLemmas

/-- C2: over the reals, when `location ≠ aim` and the cross product of
`aim - location` with `zenith` is not the zero vector, `setcamera` yields
`direction`, `screenx` and `screeny` of unit length and pairwise orthogonal,
with `distance = |aim - location|` and `direction = (aim - location)/distance`. -/
theorem setcamera_orthonormal (location aim zenith : Vec3 ℝ)
    (hne : location ≠ aim)
    (hcross : cross (⟨aim.x - location.x, aim.y - location.y, aim.z - location.z⟩ : Vec3 ℝ)
      zenith ≠ ⟨0, 0, 0⟩) :
    let cam := setcamera Real.sqrt location aim zenith
    let d : Vec3 ℝ := ⟨aim.x - location.x, aim.y - location.y, aim.z - location.z⟩
    modulus Real.sqrt cam.direction = 1 ∧
    modulus Real.sqrt cam.screenx = 1 ∧
    modulus Real.sqrt cam.screeny = 1 ∧
    dot cam.direction cam.screenx = 0 ∧
    dot cam.direction cam.screeny = 0 ∧
    dot cam.screenx cam.screeny = 0 ∧
    cam.distance = modulus Real.sqrt d ∧
    cam.direction = ⟨d.x / cam.distance, d.y / cam.distance, d.z / cam.distance⟩ := by
  intro cam d
  obtain ⟨_, hdir, hunit, hsx, hsxpos⟩ := setcamera_regular location aim zenith hne hcross
  have horth : dot (cameraScreenx Real.sqrt location aim zenith)
      (cameraDirection Real.sqrt location aim) = 0 := by
    rw [hsx]; exact dot_cross_left _ _
  have hsy : dot (cameraScreeny Real.sqrt location aim zenith)
      (cameraScreeny Real.sqrt location aim zenith)
      = dot (cameraScreenx Real.sqrt location aim zenith)
        (cameraScreenx Real.sqrt location aim zenith) := by
    unfold cameraScreeny
    rw [dot_cross_self, hunit, horth]
    ring
  have hsypos : 0 < dot (cameraScreeny Real.sqrt location aim zenith)
      (cameraScreeny Real.sqrt location aim zenith) := by
    rw [hsy]; exact hsxpos
  refine ⟨?_, ?_, ?_, ?_, ?_, ?_, rfl, hdir⟩
  · change modulus Real.sqrt (cameraDirection Real.sqrt location aim) = 1
    unfold modulus
    rw [hunit, Real.sqrt_one]
  · exact modulus_normalised _ hsxpos
  · exact modulus_normalised _ hsypos
  · change dot (cameraDirection Real.sqrt location aim) (⟨_, _, _⟩ : Vec3 ℝ) = 0
    have h := dot_div_left (cameraScreenx Real.sqrt location aim zenith)
      (cameraDirection Real.sqrt location aim)
      (modulus Real.sqrt (cameraScreenx Real.sqrt location aim zenith))
    rw [horth, zero_div] at h
    rw [← h]
    unfold dot; ring
  · change dot (cameraDirection Real.sqrt location aim) (⟨_, _, _⟩ : Vec3 ℝ) = 0
    have h := dot_div_left (cameraScreeny Real.sqrt location aim zenith)
      (cameraDirection Real.sqrt location aim)
      (modulus Real.sqrt (cameraScreeny Real.sqrt location aim zenith))
    have h0 : dot (cameraScreeny Real.sqrt location aim zenith)
        (cameraDirection Real.sqrt location aim) = 0 := by
      unfold cameraScreeny; exact dot_cross_right _ _
    rw [h0, zero_div] at h
    rw [← h]
    unfold dot; ring
  · change dot (⟨_, _, _⟩ : Vec3 ℝ) (⟨_, _, _⟩ : Vec3 ℝ) = 0
    rw [dot_div_div]
    have h0 : dot (cameraScreenx Real.sqrt location aim zenith)
        (cameraScreeny Real.sqrt location aim zenith) = 0 := by
      have := dot_cross_left (cameraScreenx Real.sqrt location aim zenith)
        (cameraDirection Real.sqrt location aim)
      unfold cameraScreeny
      rw [← this]
      unfold dot; ring
    rw [h0, zero_div]

/-- C2 at the default camera of `main`: location `(40, 0, 0)`, aim the origin,
zenith `(0, 0, 1)`. -/
theorem setcamera_orthonormal_witness :
    let cam := setcamera Real.sqrt (⟨40, 0, 0⟩ : Vec3 ℝ) ⟨0, 0, 0⟩ ⟨0, 0, 1⟩
    let d : Vec3 ℝ := ⟨0 - 40, 0 - 0, 0 - 0⟩
    modulus Real.sqrt cam.direction = 1 ∧
    modulus Real.sqrt cam.screenx = 1 ∧
    modulus Real.sqrt cam.screeny = 1 ∧
    dot cam.direction cam.screenx = 0 ∧
    dot cam.direction cam.screeny = 0 ∧
    dot cam.screenx cam.screeny = 0 ∧
    cam.distance = modulus Real.sqrt d ∧
    cam.direction = ⟨d.x / cam.distance, d.y / cam.distance, d.z / cam.distance⟩ :=
  setcamera_orthonormal ⟨40, 0, 0⟩ ⟨0, 0, 0⟩ ⟨0, 0, 1⟩
    (by simp [vec3_ne_iff]) (by simp [vec3_ne_iff, cross])

/-! ### The main loop: what each branch leaves alone -/

section LoopLemmas

variable {α : Type} [LinearOrderedField α] [FloorRing α]

theorem mem_intRange (lo hi i : Int) : i ∈ intRange lo hi ↔ lo ≤ i ∧ i ≤ hi := by
  unfold intRange
  simp only [List.mem_map, List.mem_range]
  constructor
  · rintro ⟨k, hk, rfl⟩
    have h1 : (k : Int) < ((hi - lo + 1).toNat : Int) := by exact_mod_cast hk
    have h2 : (0 : Int) ≤ (k : Int) := Int.ofNat_nonneg k
    constructor
    · omega
    · omega
  · rintro ⟨h1, h2⟩
    refine ⟨(i - lo).toNat, ?_, ?_⟩
    · omega
    · have : ((i - lo).toNat : Int) = i - lo := Int.toNat_of_nonneg (by omega)
      omega

theorem boundsTest_iff (x y : Int) :
    boundsTest x y ↔ (0 < x ∧ x < WIDTH) ∧ (0 < y ∧ y < HEIGHT) := by
  have h2 : Int.tdiv (600 : Int) 2 = 300 := by decide
  unfold boundsTest WIDTH HEIGHT
  rw [h2, abs_lt, abs_lt]
  constructor
  · rintro ⟨⟨a, b⟩, c, d⟩
    exact ⟨⟨by omega, by omega⟩, by omega, by omega⟩
  · rintro ⟨⟨a, b⟩, c, d⟩
    exact ⟨⟨by omega, by omega⟩, by omega, by omega⟩

theorem foldl_nested {S A B : Type} (l1 : List A) (l2 : List B) (f : S → A → B → S) (s : S) :
    l1.foldl (fun s a => l2.foldl (fun s b => f s a b) s) s
      = (l1 ×ˢ l2).foldl (fun s ab => f s ab.1 ab.2) s := by
  induction l1 generalizing s with
  | nil => rfl
  | cons a l1 ih =>
    rw [List.product_cons, List.foldl_append, List.foldl_map, List.foldl_cons, ih]

theorem foldl_clearPoint (background : Int) (L : α) (l : List (Int × Int)) (scr : Screen α) :
    (∀ p, (l.foldl (fun s ab => clearPoint background L s ab.1 ab.2) scr).image p
        = if p ∈ l then background else scr.image p) ∧
    (∀ k, (l.foldl (fun s ab => clearPoint background L s ab.1 ab.2) scr).zbuffer k
        = if ∃ ab ∈ l, WIDTH * ab.1 + ab.2 = k then (5 / 2) * L else scr.zbuffer k) := by
  induction l generalizing scr with
  | nil => simp
  | cons a l ih =>
    constructor
    · intro p
      rw [List.foldl_cons, (ih _).1 p]
      by_cases h : p ∈ l
      · rw [if_pos h, if_pos (List.mem_cons_of_mem _ h)]
      · rw [if_neg h]
        by_cases ha : p = a
        · subst ha
          rw [if_pos (List.mem_cons_self _ _)]
          simp [clearPoint]
        · rw [if_neg]
          · simp only [clearPoint]
            exact Function.update_noteq ha _ _
          · intro hm
            rcases List.mem_cons.mp hm with e | hm
            · exact ha e
            · exact h hm
    · intro k
      rw [List.foldl_cons, (ih _).2 k]
      by_cases h : ∃ ab ∈ l, WIDTH * ab.1 + ab.2 = k
      · rw [if_pos h, if_pos]
        obtain ⟨b, hb, e⟩ := h
        exact ⟨b, List.mem_cons_of_mem _ hb, e⟩
      · rw [if_neg h]
        by_cases ha : WIDTH * a.1 + a.2 = k
        · rw [if_pos ⟨a, List.mem_cons_self _ _, ha⟩]
          simp [clearPoint, ← ha]
        · rw [if_neg]
          · simp only [clearPoint]
            exact Function.update_noteq (Ne.symm ha) _ _
          · rintro ⟨b, hb, e⟩
            rcases List.mem_cons.mp hb with rfl | hb
            · exact ha e
            · exact h ⟨b, hb, e⟩

/-- After the clearing loops every pixel of the window holds the background
colour and every cell `WIDTH*x + y` of the z-buffer holds `2.5*L`. -/
theorem clearScreen_spec (background : Int) (L : α) (scr : Screen α) (x y : Int)
    (hx : 0 ≤ x ∧ x < WIDTH) (hy : 0 ≤ y ∧ y < HEIGHT) :
    (clearScreen background L scr).image (x, y) = background ∧
    (clearScreen background L scr).zbuffer (WIDTH * x + y) = (5 / 2) * L := by
  unfold clearScreen
  rw [foldl_nested (intRange 0 (WIDTH - 1)) (intRange 0 (HEIGHT - 1))
    (fun s i j => clearPoint background L s i j)]
  have hmem : (x, y) ∈ intRange 0 (WIDTH - 1) ×ˢ intRange 0 (HEIGHT - 1) := by
    rw [List.mem_product, mem_intRange, mem_intRange]
    omega
  have h := foldl_clearPoint background L
    (intRange 0 (WIDTH - 1) ×ˢ intRange 0 (HEIGHT - 1)) scr
  constructor
  · rw [h.1 (x, y), if_pos hmem]
  · rw [h.2 (WIDTH * x + y), if_pos ⟨(x, y), hmem, rfl⟩]

theorem processLine_boundary (sqrt : α → α) (sc : Scanf α) (st : State α)
    (h : isBoundary sc st.buffer) : processLine sqrt sc st = frameBoundary sqrt st := by
  unfold processLine
  simp only []
  rw [if_neg h.1, if_neg h.2]

theorem handleKeys_nil (sqrt : α → α) (st : State α) : handleKeys sqrt st [] = st := rfl

theorem step_nil (sqrt : α → α) (sc : Scanf α) (st : State α) (h : st.running = true) :
    step sqrt sc [] st = processLine sqrt sc (fgets st) := by
  unfold step
  rw [if_pos h, handleKeys_nil]

theorem fgets_fields (st : State α) :
    (fgets st).running = st.running ∧ (fgets st).paused = st.paused ∧
    (fgets st).filepos = st.filepos ∧ (fgets st).mddata = st.mddata ∧
    (fgets st).shown = st.shown ∧ (fgets st).screen = st.screen ∧
    (fgets st).cam = st.cam ∧ (fgets st).loc = st.loc ∧ (fgets st).aim = st.aim ∧
    (fgets st).zen = st.zen ∧ (fgets st).msg = st.msg ∧
    (fgets st).recording = st.recording ∧ (fgets st).background = st.background ∧
    (fgets st).L = st.L ∧ (fgets st).fade = st.fade := by
  unfold fgets
  split <;> simp

theorem frameBoundary_fields (sqrt : α → α) (st : State α) :
    (frameBoundary sqrt st).shown = st.shown ++ [Shown.mk st.screen.image st.msg st.recording] ∧
    (frameBoundary sqrt st).screen = clearScreen st.background st.L st.screen ∧
    (frameBoundary sqrt st).cam = setcamera sqrt st.loc st.aim st.zen ∧
    (frameBoundary sqrt st).pos = (if st.paused then st.filepos else st.pos) ∧
    (frameBoundary sqrt st).filepos = (if st.paused then st.filepos else st.pos) ∧
    (frameBoundary sqrt st).paused = st.paused ∧
    (frameBoundary sqrt st).running = st.running ∧
    (frameBoundary sqrt st).mddata = st.mddata ∧
    (frameBoundary sqrt st).buffer = st.buffer := by
  obtain ⟨background, L, loc, aim, zen, fade, mddata, pos, buffer, command, msg, paused,
    recording, screenshot, nscreenshot, filepos, cam, screen, shown, ppm, video, running⟩ := st
  cases paused <;> cases screenshot <;> cases recording <;>
    exact ⟨rfl, rfl, rfl, rfl, rfl, rfl, rfl, rfl, rfl⟩

end LoopLemmas

section StepLemmas

variable {α : Type} [LinearOrderedField α] [FloorRing α]

/-- An iteration without key presses on a line that is neither a particle nor
a comment is the frame branch, applied after the line has been read. -/
theorem step_boundary (sqrt : α → α) (sc : Scanf α) (st : State α)
    (hrun : st.running = true) (h : isBoundary sc (lineRead st)) :
    step sqrt sc [] st = frameBoundary sqrt (fgets st) := by
  rw [step_nil sqrt sc st hrun]
  exact processLine_boundary sqrt sc (fgets st) h

theorem plainScanf_floats_length (cs : List Char) :
    ((plainScanf α).floats cs).length = (scanFloats 5 cs).length := by
  simp [plainScanf]

end StepLemmas

/-- C3, as stated, fails: on the data file `"abc\n"` the first iteration of the
main loop reads a line that is not blank, does not begin with `#` and has no
value converted, and yet the frame is displayed, the bookmark moves from 0 to
4 and cell 0 of the z-buffer is reset from 0 to `2.5*L = 100`. -/
theorem malformed_line_not_ignored :
    lineRead (defaultState Real.sqrt "abc\n".toList) = "abc\n".toList ∧
    ((plainScanf ℝ).floats "abc\n".toList).length = 0 ∧
    (defaultState Real.sqrt "abc\n".toList).shown.length = 0 ∧
    (step Real.sqrt (plainScanf ℝ) [] (defaultState Real.sqrt "abc\n".toList)).shown.length = 1 ∧
    (defaultState Real.sqrt "abc\n".toList).filepos = 0 ∧
    (step Real.sqrt (plainScanf ℝ) [] (defaultState Real.sqrt "abc\n".toList)).filepos = 4 ∧
    (defaultState Real.sqrt "abc\n".toList).screen.zbuffer 0 = 0 ∧
    (step Real.sqrt (plainScanf ℝ) [] (defaultState Real.sqrt "abc\n".toList)).screen.zbuffer 0
      = 100 := by
  have hline : lineRead (defaultState Real.sqrt "abc\n".toList) = "abc\n".toList := by decide
  have hlen : ((plainScanf ℝ).floats "abc\n".toList).length = 0 := by
    rw [plainScanf_floats_length]; decide
  have hb : isBoundary (plainScanf ℝ) (lineRead (defaultState Real.sqrt "abc\n".toList)) := by
    rw [hline]
    refine ⟨?_, by decide⟩
    rw [hlen]; decide
  have hstep := step_boundary Real.sqrt (plainScanf ℝ) (defaultState Real.sqrt "abc\n".toList)
    rfl hb
  have hf := frameBoundary_fields Real.sqrt (fgets (defaultState Real.sqrt "abc\n".toList))
  refine ⟨hline, hlen, rfl, ?_, rfl, ?_, rfl, ?_⟩
  · rw [hstep, hf.1]; rfl
  · rw [hstep, hf.2.2.2.2.1]; decide
  · rw [hstep, hf.2.1]
    have h := (clearScreen_spec (fgets (defaultState Real.sqrt "abc\n".toList)).background
      (fgets (defaultState Real.sqrt "abc\n".toList)).L
      (fgets (defaultState Real.sqrt "abc\n".toList)).screen 0 0 (by decide) (by decide)).2
    have h0 : WIDTH * 0 + 0 = 0 := by decide
    rw [h0] at h
    rw [h]
    have hL : (fgets (defaultState Real.sqrt "abc\n".toList)).L = 40 := rfl
    rw [hL]; norm_num

/-- C3, amended: an iteration (without key presses) on a line that does not
begin with `#` and has fewer than three values converted, blank or not, draws
no particle and takes the frame boundary: the image as it stood is displayed
with the message, the camera is set up again from `loc`, `aim`, `zen`, the
window and the z-buffer are cleared, and the bookmark is set to the stream
position after the line (when paused, the stream is put back at the bookmark
instead). -/
theorem short_line_takes_frame_boundary {α : Type} [LinearOrderedField α] [FloorRing α]
    (sqrt : α → α) (sc : Scanf α) (st : State α)
    (hrun : st.running = true)
    (hfew : (sc.floats (lineRead st)).length < 3)
    (hhash : (lineRead st).head? ≠ some '#') :
    (step sqrt sc [] st).shown = st.shown ++ [Shown.mk st.screen.image st.msg st.recording] ∧
    (step sqrt sc [] st).cam = setcamera sqrt st.loc st.aim st.zen ∧
    (step sqrt sc [] st).screen = clearScreen st.background st.L st.screen ∧
    (∀ x y : Int, 0 ≤ x → x < WIDTH → 0 ≤ y → y < HEIGHT →
      (step sqrt sc [] st).screen.image (x, y) = st.background ∧
      (step sqrt sc [] st).screen.zbuffer (WIDTH * x + y) = (5 / 2) * st.L) ∧
    (st.paused = false →
      (step sqrt sc [] st).filepos = (fgets st).pos ∧
      (step sqrt sc [] st).pos = (fgets st).pos) ∧
    (st.paused = true →
      (step sqrt sc [] st).filepos = st.filepos ∧ (step sqrt sc [] st).pos = st.filepos) := by
  have hb : isBoundary sc (lineRead st) := ⟨by omega, hhash⟩
  have hstep := step_boundary sqrt sc st hrun hb
  have hf := frameBoundary_fields sqrt (fgets st)
  have hg := fgets_fields st
  obtain ⟨_, hgp, hgf, _, hgs, hgscr, _, hgl, hga, hgz, hgm, hgr, hgb, hgL, _⟩ := hg
  obtain ⟨h1, h2, h3, h4, h5, _⟩ := hf
  rw [hstep]
  refine ⟨?_, ?_, ?_, ?_, ?_, ?_⟩
  · rw [h1, hgs, hgscr, hgm, hgr]
  · rw [h3, hgl, hga, hgz]
  · rw [h2, hgb, hgL, hgscr]
  · intro x y hx0 hx1 hy0 hy1
    rw [h2, hgb, hgL]
    exact clearScreen_spec st.background st.L _ x y ⟨hx0, hx1⟩ ⟨hy0, hy1⟩
  · intro hp
    rw [h4, h5, hgp, hp]
    exact ⟨rfl, rfl⟩
  · intro hp
    rw [h4, h5, hgp, hp, hgf]
    exact ⟨rfl, rfl⟩

/-- C3, amended, on the data file `"1.0 2.0\n"` read with the default options. -/
theorem short_line_takes_frame_boundary_witness :
    (step Real.sqrt (plainScanf ℝ) [] (defaultState Real.sqrt "1.0 2.0\n".toList)).shown
      = (defaultState Real.sqrt "1.0 2.0\n".toList).shown ++
        [Shown.mk (defaultState Real.sqrt "1.0 2.0\n".toList).screen.image
          (defaultState Real.sqrt "1.0 2.0\n".toList).msg
          (defaultState Real.sqrt "1.0 2.0\n".toList).recording] :=
  (short_line_takes_frame_boundary Real.sqrt (plainScanf ℝ)
    (defaultState Real.sqrt "1.0 2.0\n".toList) rfl
    (by rw [plainScanf_floats_length]; decide) (by decide)).1

/-! ### The rasteriser at one pixel -/

section PixelLemmas

variable {α : Type} [LinearOrderedField α] [FloorRing α]

theorem index_injective (x y x' y' : Int) (h : boundsTest x y) (h' : boundsTest x' y')
    (e : WIDTH * x + y = WIDTH * x' + y') : x = x' ∧ y = y' := by
  rw [boundsTest_iff] at h h'
  unfold WIDTH HEIGHT at *
  omega

theorem drawPoint_view (sqrt : α → α) (L : α) (fade : Int) (c : Colour) (depth : α)
    (xs ys s : Int) (scr : Screen α) (i j x y : Int) (hb : boundsTest x y) :
    pixelView (drawPoint sqrt L fade c depth xs ys s scr i j) x y
      = if (i, j) = (x - xs, y - ys) then
          pointEffect sqrt L fade c depth s i j (pixelView scr x y)
        else pixelView scr x y := by
  by_cases hij : (i, j) = (x - xs, y - ys)
  · rw [if_pos hij]
    have hi : xs + i = x := by
      have := congrArg Prod.fst hij
      simp only at this
      omega
    have hj : ys + j = y := by
      have := congrArg Prod.snd hij
      simp only at this
      omega
    unfold drawPoint pointEffect
    by_cases hc : i * i + j * j > s * s
    · rw [if_pos hc, if_pos hc]
    · rw [if_neg hc, if_neg hc]
      cases hl : lighting sqrt s i j with
      | none => rfl
      | some l =>
        simp only [hi, hj]
        rw [if_pos hb]
        by_cases hz : scr.zbuffer (WIDTH * x + y) > depth - l
        · have hz' : (pixelView scr x y).2 > depth - l := hz
          rw [if_pos hz, if_pos hz']
          simp [pixelView]
        · have hz' : ¬ (pixelView scr x y).2 > depth - l := hz
          rw [if_neg hz, if_neg hz']
  · rw [if_neg hij]
    unfold drawPoint
    by_cases hc : i * i + j * j > s * s
    · rw [if_pos hc]
    · rw [if_neg hc]
      cases hl : lighting sqrt s i j with
      | none => rfl
      | some l =>
        simp only []
        by_cases hb' : boundsTest (xs + i) (ys + j)
        · rw [if_pos hb']
          by_cases hz : scr.zbuffer (WIDTH * (xs + i) + (ys + j)) > depth - l
          · rw [if_pos hz]
            have hne : (x, y) ≠ (xs + i, ys + j) := by
              intro e
              apply hij
              have e1 := congrArg Prod.fst e
              have e2 := congrArg Prod.snd e
              simp only at e1 e2
              rw [Prod.mk.injEq]
              constructor <;> omega
            have hne' : WIDTH * x + y ≠ WIDTH * (xs + i) + (ys + j) := by
              intro e
              obtain ⟨e1, e2⟩ := index_injective x y (xs + i) (ys + j) hb hb' e
              exact hne (by rw [e1, e2])
            unfold pixelView
            simp only []
            rw [Function.update_noteq hne, Function.update_noteq hne']
          · rw [if_neg hz]
        · rw [if_neg hb']

theorem pointEffect_idem (sqrt : α → α) (L : α) (fade : Int) (c : Colour) (depth : α)
    (s i j : Int) (v : Int × α) :
    pointEffect sqrt L fade c depth s i j (pointEffect sqrt L fade c depth s i j v)
      = pointEffect sqrt L fade c depth s i j v := by
  unfold pointEffect
  by_cases hc : i * i + j * j > s * s
  · simp only [if_pos hc]
  · simp only [if_neg hc]
    cases hl : lighting sqrt s i j with
    | none => rfl
    | some l =>
      simp only []
      by_cases hz : v.2 > depth - l
      · simp only [if_pos hz]
        rw [if_neg (lt_irrefl _)]
      · simp only [if_neg hz]

theorem foldl_drawPoint_view (sqrt : α → α) (L : α) (fade : Int) (c : Colour) (depth : α)
    (xs ys s : Int) (x y : Int) (hb : boundsTest x y) (l : List (Int × Int))
    (scr : Screen α) :
    pixelView (l.foldl (fun scr ab => drawPoint sqrt L fade c depth xs ys s scr ab.1 ab.2) scr)
        x y
      = if (x - xs, y - ys) ∈ l then
          pointEffect sqrt L fade c depth s (x - xs) (y - ys) (pixelView scr x y)
        else pixelView scr x y := by
  induction l generalizing scr with
  | nil => simp
  | cons a l ih =>
    rw [List.foldl_cons, ih, drawPoint_view sqrt L fade c depth xs ys s scr a.1 a.2 x y hb]
    by_cases ha : (a.1, a.2) = (x - xs, y - ys)
    · have ha' : a = (x - xs, y - ys) := ha
      have hmem : (x - xs, y - ys) ∈ a :: l := by rw [ha']; exact List.mem_cons_self _ _
      have e1 : a.1 = x - xs := congrArg Prod.fst ha
      have e2 : a.2 = y - ys := congrArg Prod.snd ha
      rw [if_pos ha, if_pos hmem, e1, e2, pointEffect_idem]
      by_cases hm : (x - xs, y - ys) ∈ l
      · rw [if_pos hm]
      · rw [if_neg hm]
    · have ha' : ¬ a = (x - xs, y - ys) := ha
      rw [if_neg ha]
      by_cases hm : (x - xs, y - ys) ∈ l
      · rw [if_pos hm, if_pos (List.mem_cons_of_mem _ hm)]
      · have hmem : ¬ (x - xs, y - ys) ∈ a :: l := by
          intro h
          rcases List.mem_cons.mp h with e | h
          · exact ha' e.symm
          · exact hm h
        rw [if_neg hm, if_neg hmem]

/-- The effect of drawing one particle on a pixel that passes the bounds test:
if the particle reaches the pixel with light factor `l` and the z-buffer cell
is greater than `depth - l`, the cell becomes `depth - l` and the pixel gets
the particle's value for `l`; otherwise both stay as they are. -/
theorem drawParticle_view (sqrt : α → α) (cam : Camera α) (L : α) (fade : Int)
    (scr : Screen α) (p : Particle α) (x y : Int) (hb : boundsTest x y) :
    pixelView (drawParticle sqrt cam L fade scr p) x y
      = match particleLight sqrt cam p x y with
        | none => pixelView scr x y
        | some l =>
          if scr.zbuffer (WIDTH * x + y) > particleDepth cam p.position - l then
            (pixelValue L fade p.c (particleDepth cam p.position) l,
              particleDepth cam p.position - l)
          else pixelView scr x y := by
  unfold drawParticle particleLight
  simp only []
  by_cases hd : particleDepth cam p.position > 1
  · rw [if_pos hd, if_pos hd]
    unfold drawDisk
    rw [foldl_nested _ _
      (fun scr i j => drawPoint sqrt L fade p.c (particleDepth cam p.position)
        (particleXs cam p.position) (particleYs cam p.position)
        (particleS cam p.position p.R) scr i j)]
    rw [foldl_drawPoint_view sqrt L fade p.c _ _ _ _ x y hb]
    unfold diskLight
    have hiff : (x - particleXs cam p.position, y - particleYs cam p.position) ∈
        intRange (-(particleS cam p.position p.R)) (particleS cam p.position p.R) ×ˢ
          intRange (-(particleS cam p.position p.R)) (particleS cam p.position p.R)
        ↔ (x - particleXs cam p.position) ∈
            intRange (-(particleS cam p.position p.R)) (particleS cam p.position p.R) ∧
          (y - particleYs cam p.position) ∈
            intRange (-(particleS cam p.position p.R)) (particleS cam p.position p.R) :=
      List.mem_product
    by_cases hm : (x - particleXs cam p.position) ∈
        intRange (-(particleS cam p.position p.R)) (particleS cam p.position p.R) ∧
        (y - particleYs cam p.position) ∈
        intRange (-(particleS cam p.position p.R)) (particleS cam p.position p.R)
    · rw [if_pos (hiff.mpr hm)]
      unfold pointEffect
      by_cases hc : (x - particleXs cam p.position) * (x - particleXs cam p.position) +
          (y - particleYs cam p.position) * (y - particleYs cam p.position) >
          particleS cam p.position p.R * particleS cam p.position p.R
      · rw [if_pos hc, if_neg (by tauto)]
      · rw [if_neg hc, if_pos ⟨hm.1, hm.2, hc⟩]
        cases lighting sqrt (particleS cam p.position p.R) (x - particleXs cam p.position)
          (y - particleYs cam p.position) with
        | none => rfl
        | some l => rfl
    · rw [if_neg (fun h => hm (hiff.mp h)), if_neg (by tauto)]
  · rw [if_neg hd, if_neg hd]

end PixelLemmas

/-! ### Worked values -/

section WorkedValues

theorem toInt_eq {α : Type} [LinearOrderedField α] [FloorRing α] (x : α) (n : Int)
    (h0 : 0 ≤ x) (h1 : (n : α) ≤ x) (h2 : x < (n : α) + 1) : toInt x = n := by
  unfold toInt
  rw [if_pos h0]
  exact Int.floor_eq_iff.mpr ⟨h1, h2⟩

theorem setcamera_default :
    setcamera Real.sqrt (⟨40, 0, 0⟩ : Vec3 ℝ) ⟨0, 0, 0⟩ ⟨0, 0, 1⟩ = defaultCamera := by
  have h40 : Real.sqrt 1600 = 40 := by
    rw [show (1600 : ℝ) = 40 * 40 by norm_num]
    exact Real.sqrt_mul_self (by norm_num)
  have hd : cameraDirection Real.sqrt (⟨40, 0, 0⟩ : Vec3 ℝ) ⟨0, 0, 0⟩ = ⟨-1, 0, 0⟩ := by
    unfold cameraDirection modulus dot
    norm_num [h40]
  have hx : cameraScreenx Real.sqrt (⟨40, 0, 0⟩ : Vec3 ℝ) ⟨0, 0, 0⟩ ⟨0, 0, 1⟩ = ⟨0, 1, 0⟩ := by
    unfold cameraScreenx
    rw [hd]
    unfold modulus dot cross
    norm_num
  have hy : cameraScreeny Real.sqrt (⟨40, 0, 0⟩ : Vec3 ℝ) ⟨0, 0, 0⟩ ⟨0, 0, 1⟩ = ⟨0, 0, 1⟩ := by
    unfold cameraScreeny
    rw [hd, hx]
    unfold cross
    norm_num
  unfold setcamera defaultCamera
  rw [hd, hx, hy]
  unfold modulus dot
  norm_num [h40]

end WorkedValues

section TwoParticles

variable {α : Type} [LinearOrderedField α] [FloorRing α]

theorem clearScreen_view (background : Int) (L : α) (scr : Screen α) (x y : Int)
    (hb : boundsTest x y) :
    pixelView (clearScreen background L scr) x y = (background, (5 / 2) * L) := by
  rw [boundsTest_iff] at hb
  obtain ⟨h1, h2⟩ := clearScreen_spec background L scr x y
    ⟨le_of_lt hb.1.1, hb.1.2⟩ ⟨le_of_lt hb.2.1, hb.2.2⟩
  unfold pixelView
  rw [h1, h2]

theorem nearParticle_values :
    particleDepth defaultCamera (nearParticle : Particle ℝ).position = 2 ∧
    particleXs defaultCamera (nearParticle : Particle ℝ).position = 150 ∧
    particleYs defaultCamera (nearParticle : Particle ℝ).position = 300 ∧
    particleS defaultCamera (nearParticle : Particle ℝ).position (nearParticle : Particle ℝ).R
      = 150 := by
  have hd : particleDepth defaultCamera (nearParticle : Particle ℝ).position = 2 := by
    unfold particleDepth defaultCamera nearParticle dot
    norm_num
  refine ⟨hd, ?_, ?_, ?_⟩
  · unfold particleXs
    rw [hd]
    unfold defaultCamera nearParticle dot WIDTH
    apply toInt_eq <;> norm_num
  · unfold particleYs
    rw [hd]
    unfold defaultCamera nearParticle dot HEIGHT
    apply toInt_eq <;> norm_num
  · unfold particleS
    rw [hd]
    unfold nearParticle WIDTH
    apply toInt_eq <;> norm_num

theorem farParticle_values :
    particleDepth defaultCamera (farParticle : Particle ℝ).position = 23 / 10 ∧
    particleXs defaultCamera (farParticle : Particle ℝ).position = 270 ∧
    particleYs defaultCamera (farParticle : Particle ℝ).position = 300 ∧
    particleS defaultCamera (farParticle : Particle ℝ).position (farParticle : Particle ℝ).R
      = 130 := by
  have hd : particleDepth defaultCamera (farParticle : Particle ℝ).position = 23 / 10 := by
    unfold particleDepth defaultCamera farParticle dot
    norm_num
  refine ⟨hd, ?_, ?_, ?_⟩
  · unfold particleXs
    rw [hd]
    unfold defaultCamera farParticle dot WIDTH
    apply toInt_eq <;> norm_num
  · unfold particleYs
    rw [hd]
    unfold defaultCamera farParticle dot HEIGHT
    apply toInt_eq <;> norm_num
  · unfold particleS
    rw [hd]
    unfold farParticle WIDTH
    apply toInt_eq <;> norm_num

theorem nearParticle_light :
    particleLight Real.sqrt defaultCamera (nearParticle : Particle ℝ) 270 300 = some (3 / 5) := by
  obtain ⟨hd, hx, hy, hs⟩ := nearParticle_values
  unfold particleLight
  rw [hd, hx, hy, hs, if_pos (by norm_num)]
  unfold diskLight
  rw [if_pos (by simp only [mem_intRange]; decide)]
  unfold lighting
  rw [if_neg (by decide)]
  have h : Real.sqrt (1 - ((120 * 120 + 0 * 0 : Int) : ℝ) / ((150 * 150 : Int) : ℝ)) = 3 / 5 := by
    rw [show (1 - ((120 * 120 + 0 * 0 : Int) : ℝ) / ((150 * 150 : Int) : ℝ)) = (3 / 5) * (3 / 5) by
      push_cast; norm_num]
    exact Real.sqrt_mul_self (by norm_num)
  have e1 : (270 : Int) - 150 = 120 := by decide
  have e2 : (300 : Int) - 300 = 0 := by decide
  simp only [e1, e2]
  rw [h, if_neg (by norm_num)]

theorem farParticle_light :
    particleLight Real.sqrt defaultCamera (farParticle : Particle ℝ) 270 300 = some 1 := by
  obtain ⟨hd, hx, hy, hs⟩ := farParticle_values
  unfold particleLight
  rw [hd, hx, hy, hs, if_pos (by norm_num)]
  unfold diskLight
  rw [if_pos (by simp only [mem_intRange]; decide)]
  unfold lighting
  rw [if_neg (by decide)]
  have h : Real.sqrt (1 - ((0 * 0 + 0 * 0 : Int) : ℝ) / ((130 * 130 : Int) : ℝ)) = 1 := by
    rw [show (1 - ((0 * 0 + 0 * 0 : Int) : ℝ) / ((130 * 130 : Int) : ℝ)) = 1 by
      push_cast; norm_num]
    exact Real.sqrt_one
  have e1 : (270 : Int) - 270 = 0 := by decide
  have e2 : (300 : Int) - 300 = 0 := by decide
  simp only [e1, e2]
  rw [h, if_neg (by norm_num)]

theorem nearParticle_pixelValue :
    pixelValue (40 : ℝ) 1 (nearParticle : Particle ℝ).c 2 (3 / 5) = 9737364 := by
  unfold pixelValue nearParticle
  simp only []
  rw [if_neg (by norm_num)]
  have h : toInt (((250 : Int) : ℝ) * (3 / 5 * (1 - ((1 : Int) : ℝ) * (2 - 1) / (2 * 40 - 1))))
      = 148 := by
    apply toInt_eq <;> norm_num
  rw [h]
  decide

theorem farParticle_pixelValue :
    pixelValue (40 : ℝ) 1 (farParticle : Particle ℝ).c (23 / 10) 1 = 16119285 := by
  unfold pixelValue farParticle
  simp only []
  rw [if_neg (by norm_num)]
  have h : toInt (((250 : Int) : ℝ) * (1 * (1 - ((1 : Int) : ℝ) * (23 / 10 - 1) / (2 * 40 - 1))))
      = 245 := by
    apply toInt_eq <;> norm_num
  rw [h]
  decide

end TwoParticles

section TwoParticlesOrder

variable {α : Type} [LinearOrderedField α] [FloorRing α]

theorem drawParticle_view_win (sqrt : α → α) (cam : Camera α) (L : α) (fade : Int)
    (scr : Screen α) (p : Particle α) (x y : Int) (l : α) (hb : boundsTest x y)
    (hl : particleLight sqrt cam p x y = some l)
    (hz : scr.zbuffer (WIDTH * x + y) > particleDepth cam p.position - l) :
    pixelView (drawParticle sqrt cam L fade scr p) x y
      = (pixelValue L fade p.c (particleDepth cam p.position) l,
          particleDepth cam p.position - l) := by
  rw [drawParticle_view sqrt cam L fade scr p x y hb, hl]
  simp only []
  rw [if_pos hz]

theorem drawParticle_view_lose (sqrt : α → α) (cam : Camera α) (L : α) (fade : Int)
    (scr : Screen α) (p : Particle α) (x y : Int) (l : α) (hb : boundsTest x y)
    (hl : particleLight sqrt cam p x y = some l)
    (hz : ¬ scr.zbuffer (WIDTH * x + y) > particleDepth cam p.position - l) :
    pixelView (drawParticle sqrt cam L fade scr p) x y = pixelView scr x y := by
  rw [drawParticle_view sqrt cam L fade scr p x y hb, hl]
  simp only []
  rw [if_neg hz]

/-- Two particles that reach the same pixel, drawn in either order on a cleared
screen: when the scalar `depth - lighting` of the first is below that of the
second and below `2.5*L`, the pixel and its z-buffer cell end up as written by
the first. -/
theorem two_particles_view (sqrt : α → α) (cam : Camera α) (L : α) (fade : Int)
    (background : Int) (scr0 : Screen α) (p q : Particle α) (x y : Int) (lp lq : α)
    (hb : boundsTest x y)
    (hp : particleLight sqrt cam p x y = some lp)
    (hq : particleLight sqrt cam q x y = some lq)
    (hlt : particleDepth cam p.position - lp < particleDepth cam q.position - lq)
    (hreset : particleDepth cam p.position - lp < (5 / 2) * L) :
    pixelView (drawParticles sqrt cam L fade (clearScreen background L scr0) [p, q]) x y
      = (pixelValue L fade p.c (particleDepth cam p.position) lp,
          particleDepth cam p.position - lp) ∧
    pixelView (drawParticles sqrt cam L fade (clearScreen background L scr0) [q, p]) x y
      = (pixelValue L fade p.c (particleDepth cam p.position) lp,
          particleDepth cam p.position - lp) := by
  have hclear := clearScreen_view background L scr0 x y hb
  have hz0 : (clearScreen background L scr0).zbuffer (WIDTH * x + y) = (5 / 2) * L :=
    congrArg Prod.snd hclear
  constructor
  · change pixelView (drawParticle sqrt cam L fade
      (drawParticle sqrt cam L fade (clearScreen background L scr0) p) q) x y = _
    have h1 := drawParticle_view_win sqrt cam L fade (clearScreen background L scr0) p x y lp
      hb hp (by rw [hz0]; exact hreset)
    have hz1 : (drawParticle sqrt cam L fade (clearScreen background L scr0) p).zbuffer
        (WIDTH * x + y) = particleDepth cam p.position - lp := congrArg Prod.snd h1
    rw [drawParticle_view_lose sqrt cam L fade _ q x y lq hb hq
      (by rw [hz1]; exact not_lt.mpr (le_of_lt hlt)), h1]
  · change pixelView (drawParticle sqrt cam L fade
      (drawParticle sqrt cam L fade (clearScreen background L scr0) q) p) x y = _
    apply drawParticle_view_win sqrt cam L fade _ p x y lp hb hp
    have hv := drawParticle_view sqrt cam L fade (clearScreen background L scr0) q x y hb
    rw [hq] at hv
    simp only [] at hv
    by_cases hz : (clearScreen background L scr0).zbuffer (WIDTH * x + y)
        > particleDepth cam q.position - lq
    · rw [if_pos hz] at hv
      have hz1 : (drawParticle sqrt cam L fade (clearScreen background L scr0) q).zbuffer
          (WIDTH * x + y) = particleDepth cam q.position - lq := congrArg Prod.snd hv
      rw [hz1]; exact hlt
    · rw [if_neg hz] at hv
      have hz1 : (drawParticle sqrt cam L fade (clearScreen background L scr0) q).zbuffer
          (WIDTH * x + y) = (clearScreen background L scr0).zbuffer (WIDTH * x + y) :=
        congrArg Prod.snd hv
      rw [hz1, hz0]; exact hreset

end TwoParticlesOrder

/-- C4, as stated, fails: with the default camera and options, the particle of
line `32.536 -0.997 -0.003 1.001` (depth 2) and the particle of line
`31.4164 -0.22655 -0.00345` (depth 2.3) both reach pixel `(270, 300)`, which
passes the bounds test; drawn on a cleared screen in either order the pixel
ends up with the value 16119285 written by the farther particle, not the
value 9737364 that the nearer particle writes there. -/
theorem nearer_particle_loses_pixel :
    setcamera Real.sqrt (⟨40, 0, 0⟩ : Vec3 ℝ) ⟨0, 0, 0⟩ ⟨0, 0, 1⟩ = defaultCamera ∧
    particleDepth defaultCamera (nearParticle : Particle ℝ).position = 2 ∧
    particleDepth defaultCamera (farParticle : Particle ℝ).position = 23 / 10 ∧
    boundsTest 270 300 ∧
    particleLight Real.sqrt defaultCamera (nearParticle : Particle ℝ) 270 300 = some (3 / 5) ∧
    particleLight Real.sqrt defaultCamera (farParticle : Particle ℝ) 270 300 = some 1 ∧
    pixelValue (40 : ℝ) 1 (nearParticle : Particle ℝ).c 2 (3 / 5) = 9737364 ∧
    (drawParticles Real.sqrt defaultCamera (40 : ℝ) 1 (clearScreen 0 40 zeroScreen)
      [nearParticle, farParticle]).image (270, 300) = 16119285 ∧
    (drawParticles Real.sqrt defaultCamera (40 : ℝ) 1 (clearScreen 0 40 zeroScreen)
      [farParticle, nearParticle]).image (270, 300) = 16119285 := by
  have hb : boundsTest 270 300 := by decide
  have hdn := nearParticle_values.1
  have hdf := farParticle_values.1
  have h := two_particles_view Real.sqrt defaultCamera (40 : ℝ) 1 0 zeroScreen
    farParticle nearParticle 270 300 1 (3 / 5) hb farParticle_light nearParticle_light
    (by rw [hdn, hdf]; norm_num) (by rw [hdf]; norm_num)
  rw [hdf, farParticle_pixelValue] at h
  exact ⟨setcamera_default, hdn, hdf, hb, nearParticle_light, farParticle_light,
    nearParticle_pixelValue,
    congrArg Prod.fst h.2, congrArg Prod.fst h.1⟩

/-- C4, amended: two particles drawn, in either order, on a freshly cleared
screen under the same camera, both reaching with a light factor a pixel that
passes the bounds test: if the scalar `depth - lighting` of one of them at
that pixel is smaller than the other's and smaller than the reset value
`2.5*L`, that particle wins the z-test there, the z-buffer cell ends up with
its scalar and the pixel with the value it writes. -/
theorem smaller_scalar_wins {α : Type} [LinearOrderedField α] [FloorRing α]
    (sqrt : α → α) (cam : Camera α) (L : α) (fade : Int)
    (background : Int) (scr0 : Screen α) (p q : Particle α) (x y : Int) (lp lq : α)
    (hb : boundsTest x y)
    (hp : particleLight sqrt cam p x y = some lp)
    (hq : particleLight sqrt cam q x y = some lq)
    (hlt : particleDepth cam p.position - lp < particleDepth cam q.position - lq)
    (hreset : particleDepth cam p.position - lp < (5 / 2) * L) :
    ((drawParticles sqrt cam L fade (clearScreen background L scr0) [p, q]).image (x, y)
        = pixelValue L fade p.c (particleDepth cam p.position) lp ∧
      (drawParticles sqrt cam L fade (clearScreen background L scr0) [p, q]).zbuffer
        (WIDTH * x + y) = particleDepth cam p.position - lp) ∧
    ((drawParticles sqrt cam L fade (clearScreen background L scr0) [q, p]).image (x, y)
        = pixelValue L fade p.c (particleDepth cam p.position) lp ∧
      (drawParticles sqrt cam L fade (clearScreen background L scr0) [q, p]).zbuffer
        (WIDTH * x + y) = particleDepth cam p.position - lp) := by
  obtain ⟨h1, h2⟩ := two_particles_view sqrt cam L fade background scr0 p q x y lp lq
    hb hp hq hlt hreset
  exact ⟨⟨congrArg Prod.fst h1, congrArg Prod.snd h1⟩,
    ⟨congrArg Prod.fst h2, congrArg Prod.snd h2⟩⟩

/-- C4, amended, at the two particles of the counterexample: the farther one
has the smaller scalar (1.3 against 1.4) and wins pixel `(270, 300)`. -/
theorem smaller_scalar_wins_witness :
    ((drawParticles Real.sqrt defaultCamera (40 : ℝ) 1 (clearScreen 0 40 zeroScreen)
        [farParticle, nearParticle]).image (270, 300)
        = pixelValue 40 1 (farParticle : Particle ℝ).c
            (particleDepth defaultCamera (farParticle : Particle ℝ).position) 1 ∧
      (drawParticles Real.sqrt defaultCamera (40 : ℝ) 1 (clearScreen 0 40 zeroScreen)
        [farParticle, nearParticle]).zbuffer (WIDTH * 270 + 300)
        = particleDepth defaultCamera (farParticle : Particle ℝ).position - 1) ∧
    ((drawParticles Real.sqrt defaultCamera (40 : ℝ) 1 (clearScreen 0 40 zeroScreen)
        [nearParticle, farParticle]).image (270, 300)
        = pixelValue 40 1 (farParticle : Particle ℝ).c
            (particleDepth defaultCamera (farParticle : Particle ℝ).position) 1 ∧
      (drawParticles Real.sqrt defaultCamera (40 : ℝ) 1 (clearScreen 0 40 zeroScreen)
        [nearParticle, farParticle]).zbuffer (WIDTH * 270 + 300)
        = particleDepth defaultCamera (farParticle : Particle ℝ).position - 1) :=
  smaller_scalar_wins Real.sqrt defaultCamera (40 : ℝ) 1 0 zeroScreen
    farParticle nearParticle 270 300 1 (3 / 5) (by decide) farParticle_light nearParticle_light
    (by rw [nearParticle_values.1, farParticle_values.1]; norm_num)
    (by rw [farParticle_values.1]; norm_num)

/-- C5 at the data file of two particle lines and a blank line, read with the
default options: the first five iterations work on the lines `1 2 3`,
`4 5 6`, the blank line, the blank line once more (the read at the end of the
file fails and leaves `buffer` as it was) and `1 2 3`; one frame has been
displayed after three iterations and two after four, before the first line is
read again. -/
theorem end_of_file_repeats_last_line :
    linesRead Real.sqrt (plainScanf ℝ) 5 (defaultState Real.sqrt "1 2 3\n4 5 6\n\n".toList)
      = ["1 2 3\n".toList, "4 5 6\n".toList, "\n".toList, "\n".toList, "1 2 3\n".toList] ∧
    (run Real.sqrt (plainScanf ℝ) 3
      (defaultState Real.sqrt "1 2 3\n4 5 6\n\n".toList)).shown.length = 1 ∧
    (run Real.sqrt (plainScanf ℝ) 4
      (defaultState Real.sqrt "1 2 3\n4 5 6\n\n".toList)).shown.length = 2 ∧
    (run Real.sqrt (plainScanf ℝ) 4
      (defaultState Real.sqrt "1 2 3\n4 5 6\n\n".toList)).pos = 0 := by
  refine ⟨?_, ?_, ?_, ?_⟩ <;> decide

section OutsideBounds

variable {α : Type} [LinearOrderedField α] [FloorRing α]

theorem drawPoint_image_outside (sqrt : α → α) (L : α) (fade : Int) (c : Colour) (depth : α)
    (xs ys s : Int) (scr : Screen α) (i j x y : Int) (hb : ¬ boundsTest x y) :
    (drawPoint sqrt L fade c depth xs ys s scr i j).image (x, y) = scr.image (x, y) := by
  unfold drawPoint
  by_cases hc : i * i + j * j > s * s
  · rw [if_pos hc]
  · rw [if_neg hc]
    cases lighting sqrt s i j with
    | none => rfl
    | some l =>
      simp only []
      by_cases hb' : boundsTest (xs + i) (ys + j)
      · rw [if_pos hb']
        by_cases hz : scr.zbuffer (WIDTH * (xs + i) + (ys + j)) > depth - l
        · rw [if_pos hz]
          have hne : (x, y) ≠ (xs + i, ys + j) := by
            intro e
            rw [Prod.mk.injEq] at e
            rw [e.1, e.2] at hb
            exact hb hb'
          exact Function.update_noteq hne _ _
        · rw [if_neg hz]
      · rw [if_neg hb']

theorem foldl_drawPoint_image_outside (sqrt : α → α) (L : α) (fade : Int) (c : Colour)
    (depth : α) (xs ys s : Int) (x y : Int) (hb : ¬ boundsTest x y) (l : List (Int × Int))
    (scr : Screen α) :
    (l.foldl (fun scr ab => drawPoint sqrt L fade c depth xs ys s scr ab.1 ab.2) scr).image
      (x, y) = scr.image (x, y) := by
  induction l generalizing scr with
  | nil => rfl
  | cons a l ih =>
    rw [List.foldl_cons, ih, drawPoint_image_outside sqrt L fade c depth xs ys s scr _ _ x y hb]

/-- Drawing a particle leaves every pixel that fails the bounds test as it is. -/
theorem drawParticle_image_outside (sqrt : α → α) (cam : Camera α) (L : α) (fade : Int)
    (scr : Screen α) (p : Particle α) (x y : Int) (hb : ¬ boundsTest x y) :
    (drawParticle sqrt cam L fade scr p).image (x, y) = scr.image (x, y) := by
  unfold drawParticle
  simp only []
  by_cases hd : particleDepth cam p.position > 1
  · rw [if_pos hd]
    unfold drawDisk
    rw [foldl_nested _ _
      (fun scr i j => drawPoint sqrt L fade p.c (particleDepth cam p.position)
        (particleXs cam p.position) (particleYs cam p.position)
        (particleS cam p.position p.R) scr i j)]
    exact foldl_drawPoint_image_outside sqrt L fade p.c _ _ _ _ x y hb _ scr
  · rw [if_neg hd]

theorem edgeParticle_values :
    particleDepth defaultCamera (edgeParticle : Particle ℝ).position = 2 ∧
    particleXs defaultCamera (edgeParticle : Particle ℝ).position = 0 ∧
    particleYs defaultCamera (edgeParticle : Particle ℝ).position = 300 ∧
    particleS defaultCamera (edgeParticle : Particle ℝ).position (edgeParticle : Particle ℝ).R
      = 150 := by
  have hd : particleDepth defaultCamera (edgeParticle : Particle ℝ).position = 2 := by
    unfold particleDepth defaultCamera edgeParticle dot
    norm_num
  refine ⟨hd, ?_, ?_, ?_⟩
  · unfold particleXs
    rw [hd]
    unfold defaultCamera edgeParticle dot WIDTH
    apply toInt_eq <;> norm_num
  · unfold particleYs
    rw [hd]
    unfold defaultCamera edgeParticle dot HEIGHT
    apply toInt_eq <;> norm_num
  · unfold particleS
    rw [hd]
    unfold edgeParticle WIDTH
    apply toInt_eq <;> norm_num

end OutsideBounds

/-- C6 at the particle of line `32.536 -2 -0.003 1.001` under the default
camera: its depth is 2 and its disk has centre `(0, 300)` and radius 150, so
the offset `(0, 0)` lies on the disk and targets the pixel `(0, 300)`, which is
inside `[0, WIDTH) x [0, HEIGHT)`; the bounds test rejects that pixel, and
drawing the particle leaves it as it was on every screen.  The same holds for
every pixel of column 0 and of row 0. -/
theorem bounds_test_skips_column_zero :
    setcamera Real.sqrt (⟨40, 0, 0⟩ : Vec3 ℝ) ⟨0, 0, 0⟩ ⟨0, 0, 1⟩ = defaultCamera ∧
    particleDepth defaultCamera (edgeParticle : Particle ℝ).position = 2 ∧
    particleXs defaultCamera (edgeParticle : Particle ℝ).position + 0 = 0 ∧
    particleYs defaultCamera (edgeParticle : Particle ℝ).position + 0 = 300 ∧
    particleS defaultCamera (edgeParticle : Particle ℝ).position (edgeParticle : Particle ℝ).R
      = 150 ∧
    ((0 : Int) ≤ 0 ∧ (0 : Int) < WIDTH ∧ (0 : Int) ≤ 300 ∧ (300 : Int) < HEIGHT) ∧
    ¬ boundsTest 0 300 ∧
    (∀ scr : Screen ℝ,
      (drawParticle Real.sqrt defaultCamera 40 1 scr edgeParticle).image (0, 300)
        = scr.image (0, 300)) ∧
    (∀ x y : Int, x = 0 ∨ y = 0 → ¬ boundsTest x y) := by
  obtain ⟨hd, hx, hy, hs⟩ := edgeParticle_values
  refine ⟨setcamera_default, hd, by rw [hx]; rfl, by rw [hy]; rfl, hs, by decide, by decide,
    ?_, ?_⟩
  · intro scr
    exact drawParticle_image_outside Real.sqrt defaultCamera 40 1 scr edgeParticle 0 300
      (by decide)
  · intro x y h hb
    rw [boundsTest_iff] at hb
    omega

section ParticleData

variable {α : Type} [LinearOrderedField α] [FloorRing α]

theorem unpackColour_nonneg (v : Int) (h0 : 0 ≤ v) :
    unpackColour v = ⟨v / 65536, v / 256 % 256, v % 256⟩ := by
  unfold unpackColour
  have h1 : Int.tdiv v 65536 = v / 65536 := Int.tdiv_eq_ediv h0 (by decide)
  have h2 : Int.tdiv v 256 = v / 256 := Int.tdiv_eq_ediv h0 (by decide)
  have h3 : Int.tmod v 256 = v % 256 := Int.tmod_eq_emod h0 (by decide)
  have h4 : Int.tmod (v / 256) 256 = v / 256 % 256 :=
    Int.tmod_eq_emod (Int.ediv_nonneg h0 (by decide)) (by decide)
  rw [h1, h2, h3, h4]

/-- On a line with more than two values converted the loop draws the particle
decoded from the values and does nothing else. -/
theorem processLine_particle (sqrt : α → α) (sc : Scanf α) (st : State α)
    (h : (sc.floats st.buffer).length > 2) :
    processLine sqrt sc st =
      { st with
        screen := drawParticle sqrt st.cam st.L st.fade st.screen
          (particleOf (sc.floats st.buffer)) } := by
  unfold processLine
  simp only []
  rw [if_pos h]

end ParticleData

/-- C7: a line with three values converted gives a particle at those
coordinates with radius 1 and colour `(250, 250, 250)`; with four values the
fourth is the radius and the colour is `(250, 250, 250)`; with five values the
fourth is the radius and, when the fifth converts to the integer `v` with
`0 ≤ v < 2^24`, the colour is `r = ⌊v/65536⌋`, `g = ⌊v/256⌋ mod 256`,
`b = v mod 256`, each channel lies in `0..255` and
`r*65536 + g*256 + b = v`. -/
theorem particle_record_decoded {α : Type} [LinearOrderedField α] [FloorRing α]
    (x y z R c : α) (v : Int) (hv0 : 0 ≤ v) (hv1 : v < 2 ^ 24) (hc : toInt c = v) :
    particleOf [x, y, z] = ⟨⟨x, y, z⟩, 1, ⟨250, 250, 250⟩⟩ ∧
    particleOf [x, y, z, R] = ⟨⟨x, y, z⟩, R, ⟨250, 250, 250⟩⟩ ∧
    particleOf [x, y, z, R, c] = ⟨⟨x, y, z⟩, R, ⟨v / 65536, v / 256 % 256, v % 256⟩⟩ ∧
    (0 ≤ v / 65536 ∧ v / 65536 ≤ 255) ∧
    (0 ≤ v / 256 % 256 ∧ v / 256 % 256 ≤ 255) ∧
    (0 ≤ v % 256 ∧ v % 256 ≤ 255) ∧
    v / 65536 * 65536 + v / 256 % 256 * 256 + v % 256 = v := by
  have h24 : (2 : Int) ^ 24 = 16777216 := by norm_num
  rw [h24] at hv1
  refine ⟨rfl, rfl, ?_, ?_, ?_, ?_, ?_⟩
  · have hcol : particleColour [x, y, z, R, c] = unpackColour (toInt c) := rfl
    have hp : particleOf [x, y, z, R, c]
        = ⟨⟨x, y, z⟩, R, particleColour [x, y, z, R, c]⟩ := rfl
    rw [hp, hcol, hc, unpackColour_nonneg v hv0]
  · omega
  · omega
  · omega
  · omega

/-- C7 on the line `1.0 2.0 3.0 2.5 16711680`: radius 2.5, colour `(255, 0, 0)`. -/
theorem particle_record_decoded_witness :
    particleOf ((plainScanf ℝ).floats "1.0 2.0 3.0 2.5 16711680\n".toList)
      = ⟨⟨1, 2, 3⟩, 5 / 2, ⟨255, 0, 0⟩⟩ := by
  have hscan : scanFloats 5 "1.0 2.0 3.0 2.5 16711680\n".toList
      = [⟨10, 1⟩, ⟨20, 1⟩, ⟨30, 1⟩, ⟨25, 1⟩, ⟨16711680, 0⟩] := by decide
  have hfl : (plainScanf ℝ).floats "1.0 2.0 3.0 2.5 16711680\n".toList
      = [1, 2, 3, 5 / 2, 16711680] := by
    change List.map Dec.toScalar (scanFloats 5 "1.0 2.0 3.0 2.5 16711680\n".toList) = _
    rw [hscan]
    simp only [List.map, Dec.toScalar]
    norm_num
  have h := (particle_record_decoded (1 : ℝ) 2 3 (5 / 2) 16711680 16711680 (by decide)
    (by norm_num) (by apply toInt_eq <;> norm_num)).2.2.1
  rw [hfl, h]
  rfl

section CameraCommand

variable {α : Type} [LinearOrderedField α] [FloorRing α]

theorem cameraCommand_inputs (fs : List α) (st : State α) (hk : fs.length ≤ 9) :
    cameraInputs (cameraCommand fs st) = fs ++ (cameraInputs st).drop fs.length := by
  rcases fs with _ | ⟨a1, _ | ⟨a2, _ | ⟨a3, _ | ⟨a4, _ | ⟨a5, _ | ⟨a6, _ | ⟨a7, _ | ⟨a8,
    _ | ⟨a9, _ | ⟨a10, t⟩⟩⟩⟩⟩⟩⟩⟩⟩⟩
  all_goals first
    | rfl
    | (exfalso; simp only [List.length_cons] at hk; omega)

theorem cameraCommand_fields (fs : List α) (st : State α) :
    (cameraCommand fs st).screen = st.screen ∧ (cameraCommand fs st).shown = st.shown ∧
    (cameraCommand fs st).cam = st.cam ∧ (cameraCommand fs st).pos = st.pos ∧
    (cameraCommand fs st).filepos = st.filepos ∧ (cameraCommand fs st).buffer = st.buffer :=
  ⟨rfl, rfl, rfl, rfl, rfl, rfl⟩

/-- The main loop on a line that is no particle, begins with `#%` and has the
command word `camera`: the camera command on the values converted, applied to
a state that differs at most in `command`. -/
theorem processLine_camera (sqrt : α → α) (sc : Scanf α) (st : State α)
    (hnot : ¬ (sc.floats st.buffer).length > 2)
    (h0 : st.buffer.head? = some '#') (h1 : st.buffer.get? 1 = some '%')
    (hcmd : sc.command st.buffer = some "camera".toList) :
    ∃ st1 : State α, processLine sqrt sc st = cameraCommand (sc.camera st.buffer) st1 ∧
      cameraInputs st1 = cameraInputs st ∧ st1.screen = st.screen ∧ st1.shown = st.shown ∧
      st1.cam = st.cam ∧ st1.pos = st.pos ∧ st1.filepos = st.filepos := by
  refine ⟨{ st with command := "camera".toList }, ?_, rfl, rfl, rfl, rfl, rfl, rfl⟩
  unfold processLine
  simp only []
  rw [if_neg hnot, if_pos h0]
  unfold commentLine
  rw [if_pos h1]
  simp only [hcmd, Option.getD_some, if_true]

end CameraCommand

/-- C8: an iteration (without key presses) on a line that begins with `#%`,
whose command word is `camera` and on which `k ≤ 9` values are converted after
it, replaces the first `k` of the nine camera inputs `loc[0..2]`, `aim[0..2]`,
`zen[0..2]`, in this order, by the values and keeps the other `9 - k`; the
image, the z-buffer, the derived camera, the frames displayed and the bookmark
stay as they are. -/
theorem camera_line_sets_leading_inputs {α : Type} [LinearOrderedField α] [FloorRing α]
    (sqrt : α → α) (sc : Scanf α) (st : State α)
    (hrun : st.running = true)
    (hnot : ¬ (sc.floats (lineRead st)).length > 2)
    (h0 : (lineRead st).head? = some '#') (h1 : (lineRead st).get? 1 = some '%')
    (hcmd : sc.command (lineRead st) = some "camera".toList)
    (hk : (sc.camera (lineRead st)).length ≤ 9) :
    cameraInputs (step sqrt sc [] st)
      = sc.camera (lineRead st) ++ (cameraInputs st).drop (sc.camera (lineRead st)).length ∧
    (step sqrt sc [] st).screen = st.screen ∧
    (step sqrt sc [] st).shown = st.shown ∧
    (step sqrt sc [] st).cam = st.cam ∧
    (step sqrt sc [] st).filepos = st.filepos := by
  have hg := fgets_fields st
  obtain ⟨_, _, hgf, _, hgs, hgscr, hgc, hgl, hga, hgz, _⟩ := hg
  obtain ⟨st1, hst1, e0, e1, e2, e3, _, e5⟩ :=
    processLine_camera sqrt sc (fgets st) hnot h0 h1 hcmd
  obtain ⟨c1, c2, c3, _, c5, _⟩ := cameraCommand_fields (sc.camera (fgets st).buffer) st1
  have hin : cameraInputs (fgets st) = cameraInputs st := by
    unfold cameraInputs
    rw [hgl, hga, hgz]
  rw [step_nil sqrt sc st hrun, hst1]
  refine ⟨?_, ?_, ?_, ?_, ?_⟩
  · have hk' : (sc.camera (fgets st).buffer).length ≤ 9 := hk
    rw [cameraCommand_inputs _ _ hk', e0, hin]
    rfl
  · rw [c1, e1]; exact hgscr
  · rw [c2, e2]; exact hgs
  · rw [c3, e3]; exact hgc
  · rw [c5, e5]; exact hgf

/-- C8 on the data file `#% camera 1 2 3 4 5 6 0 0 1`, read with the default
options: location `(1, 2, 3)`, aim `(4, 5, 6)`, zenith `(0, 0, 1)`. -/
theorem camera_line_sets_leading_inputs_witness :
    cameraInputs (step Real.sqrt (plainScanf ℝ) []
        (defaultState Real.sqrt "#% camera 1 2 3 4 5 6 0 0 1\n".toList))
      = [1, 2, 3, 4, 5, 6, 0, 0, 1] := by
  have hline : lineRead (defaultState (α := ℝ) Real.sqrt "#% camera 1 2 3 4 5 6 0 0 1\n".toList)
      = "#% camera 1 2 3 4 5 6 0 0 1\n".toList := by decide
  have hscan : scanCamera "#% camera 1 2 3 4 5 6 0 0 1\n".toList
      = [⟨1, 0⟩, ⟨2, 0⟩, ⟨3, 0⟩, ⟨4, 0⟩, ⟨5, 0⟩, ⟨6, 0⟩, ⟨0, 0⟩, ⟨0, 0⟩, ⟨1, 0⟩] := by decide
  have hcam : (plainScanf ℝ).camera "#% camera 1 2 3 4 5 6 0 0 1\n".toList
      = [1, 2, 3, 4, 5, 6, 0, 0, 1] := by
    change List.map Dec.toScalar (scanCamera "#% camera 1 2 3 4 5 6 0 0 1\n".toList) = _
    rw [hscan]
    simp only [List.map, Dec.toScalar]
    norm_num
  have h := (camera_line_sets_leading_inputs Real.sqrt (plainScanf ℝ)
    (defaultState Real.sqrt "#% camera 1 2 3 4 5 6 0 0 1\n".toList) rfl
    (by rw [plainScanf_floats_length]; decide) (by decide) (by decide)
    (by rw [hline]; decide) (by rw [hline, hcam]; decide)).1
  rw [h, hline, hcam]
  rfl

/-! ### The stream of lines -/

section StreamLemmas

variable {α : Type} [LinearOrderedField α] [FloorRing α]

theorem takeLine_ne_nil (n : Nat) (c : Char) (cs : List Char) :
    takeLine (n + 1) (c :: cs) ≠ [] := by
  unfold takeLine
  split <;> simp

theorem fgets_stream (st : State α) :
    (fgets st).buffer
        = (if takeLine 249 (st.mddata.drop st.pos) = [] then st.buffer
            else takeLine 249 (st.mddata.drop st.pos)) ∧
    (fgets st).pos
        = (if takeLine 249 (st.mddata.drop st.pos) = [] then 0
            else st.pos + (takeLine 249 (st.mddata.drop st.pos)).length) := by
  unfold fgets
  cases h : takeLine 249 (st.mddata.drop st.pos) with
  | nil => simp
  | cons c cs => simp

theorem commentLine_fields (sc : Scanf α) (st : State α) :
    (commentLine sc st).mddata = st.mddata ∧ (commentLine sc st).pos = st.pos ∧
    (commentLine sc st).filepos = st.filepos ∧ (commentLine sc st).paused = st.paused ∧
    (commentLine sc st).running = st.running ∧ (commentLine sc st).buffer = st.buffer ∧
    (commentLine sc st).shown = st.shown ∧ (commentLine sc st).screen = st.screen := by
  unfold commentLine
  simp only []
  split_ifs <;> exact ⟨rfl, rfl, rfl, rfl, rfl, rfl, rfl, rfl⟩

/-- The stream fields after the line in `buffer` has been worked on. -/
theorem processLine_stream (sqrt : α → α) (sc : Scanf α) (st : State α) :
    (processLine sqrt sc st).mddata = st.mddata ∧
    (processLine sqrt sc st).paused = st.paused ∧
    (processLine sqrt sc st).running = st.running ∧
    (processLine sqrt sc st).buffer = st.buffer ∧
    (processLine sqrt sc st).filepos
      = (if isBoundary sc st.buffer then (if st.paused then st.filepos else st.pos)
          else st.filepos) ∧
    (processLine sqrt sc st).pos
      = (if isBoundary sc st.buffer then (if st.paused then st.filepos else st.pos)
          else st.pos) := by
  by_cases hb : isBoundary sc st.buffer
  · rw [processLine_boundary sqrt sc st hb, if_pos hb, if_pos hb]
    obtain ⟨_, _, _, h4, h5, h6, h7, h8, h9⟩ := frameBoundary_fields sqrt st
    exact ⟨h8, h6, h7, h9, h5, h4⟩
  · rw [if_neg hb, if_neg hb]
    unfold isBoundary at hb
    unfold processLine
    simp only []
    by_cases hp : (sc.floats st.buffer).length > 2
    · rw [if_pos hp]
      exact ⟨rfl, rfl, rfl, rfl, rfl, rfl⟩
    · have hh : st.buffer.head? = some '#' := by
        by_contra hh
        exact hb ⟨hp, hh⟩
      rw [if_neg hp, if_pos hh]
      obtain ⟨h1, h2, h3, h4, h5, h6, _⟩ := commentLine_fields sc st
      exact ⟨h1, h4, h5, h6, h3, h2⟩

theorem fgets_same (a b : State α) (h : SameStream a b) :
    (fgets a).buffer = (fgets b).buffer ∧ streamOf (fgets a) = streamOf (fgets b) := by
  obtain ⟨hs, hbuf⟩ := h
  unfold streamOf at hs
  simp only [Prod.mk.injEq] at hs
  obtain ⟨hm, hp, hf, hpa, hr⟩ := hs
  obtain ⟨ha1, ha2⟩ := fgets_stream a
  obtain ⟨hb1, hb2⟩ := fgets_stream b
  obtain ⟨ra, pa, fa, ma, _⟩ := fgets_fields a
  obtain ⟨rb, pb, fb, mb, _⟩ := fgets_fields b
  have hbuf' : takeLine 249 (a.mddata.drop a.pos) = [] → a.buffer = b.buffer := by
    intro h0
    rcases hbuf with e | hlt
    · exact e
    · exfalso
      have hne : a.mddata.drop a.pos ≠ [] := by
        intro e
        have := List.drop_eq_nil_iff.mp e
        omega
      cases hd : a.mddata.drop a.pos with
      | nil => exact hne hd
      | cons c cs =>
        rw [hd] at h0
        exact takeLine_ne_nil 248 c cs h0
  constructor
  · rw [ha1, hb1, ← hm, ← hp]
    by_cases h0 : takeLine 249 (a.mddata.drop a.pos) = []
    · rw [if_pos h0, if_pos h0]; exact hbuf' h0
    · rw [if_neg h0, if_neg h0]
  · unfold streamOf
    rw [ra, pa, fa, ma, rb, pb, fb, mb, ha2, hb2, ← hm, ← hp, hf, hpa, hr]

/-- From two states that read the same lines, one iteration without key
presses works on the same line and leads to two such states again. -/
theorem step_same (sqrt : α → α) (sc : Scanf α) (a b : State α) (h : SameStream a b) :
    lineRead a = lineRead b ∧ SameStream (step sqrt sc [] a) (step sqrt sc [] b) := by
  obtain ⟨hbuf, hs⟩ := fgets_same a b h
  refine ⟨hbuf, ?_⟩
  have hrun : a.running = b.running := by
    have := h.1
    unfold streamOf at this
    simp only [Prod.mk.injEq] at this
    exact this.2.2.2.2
  unfold step
  by_cases hr : a.running = true
  · rw [if_pos hr, if_pos (hrun ▸ hr), handleKeys_nil, handleKeys_nil]
    obtain ⟨a1, a2, a3, a4, a5, a6⟩ := processLine_stream sqrt sc (fgets a)
    obtain ⟨b1, b2, b3, b4, b5, b6⟩ := processLine_stream sqrt sc (fgets b)
    unfold streamOf at hs
    simp only [Prod.mk.injEq] at hs
    obtain ⟨hm, hp, hf, hpa, hr'⟩ := hs
    constructor
    · unfold streamOf
      rw [a1, a2, a3, a5, a6, b1, b2, b3, b5, b6, hm, hp, hf, hpa, hr', hbuf]
    · left
      rw [a4, b4, hbuf]
  · have hr2 : ¬ b.running = true := by rw [← hrun]; exact hr
    rw [if_neg hr, if_neg hr2]
    exact h

theorem run_same (sqrt : α → α) (sc : Scanf α) (n : Nat) (a b : State α)
    (h : SameStream a b) : SameStream (run sqrt sc n a) (run sqrt sc n b) := by
  induction n generalizing a b with
  | zero => exact h
  | succ n ih => exact ih _ _ (step_same sqrt sc a b h).2

theorem linesRead_same (sqrt : α → α) (sc : Scanf α) (n : Nat) (a b : State α)
    (h : SameStream a b) : linesRead sqrt sc n a = linesRead sqrt sc n b := by
  induction n generalizing a b with
  | zero => rfl
  | succ n ih =>
    obtain ⟨h1, h2⟩ := step_same sqrt sc a b h
    unfold linesRead
    rw [h1, ih _ _ h2]

theorem run_succ_last (sqrt : α → α) (sc : Scanf α) (n : Nat) (st : State α) :
    run sqrt sc (n + 1) st = step sqrt sc [] (run sqrt sc n st) := by
  induction n generalizing st with
  | zero => rfl
  | succ n ih =>
    change run sqrt sc (n + 1) (step sqrt sc [] st) = _
    rw [ih]
    rfl

theorem run_add (sqrt : α → α) (sc : Scanf α) (m n : Nat) (st : State α) :
    run sqrt sc (m + n) st = run sqrt sc m (run sqrt sc n st) := by
  induction n generalizing st with
  | zero => rfl
  | succ n ih =>
    change run sqrt sc (m + n) (step sqrt sc [] st) = run sqrt sc m (run sqrt sc n _)
    exact ih _

end StreamLemmas

section Replay

variable {α : Type} [LinearOrderedField α] [FloorRing α]

/-- The stream fields after one iteration without key presses of a running
loop. -/
theorem step_stream (sqrt : α → α) (sc : Scanf α) (st : State α) (hrun : st.running = true) :
    (step sqrt sc [] st).mddata = st.mddata ∧
    (step sqrt sc [] st).paused = st.paused ∧
    (step sqrt sc [] st).running = st.running ∧
    (step sqrt sc [] st).buffer = lineRead st ∧
    (step sqrt sc [] st).filepos
      = (if isBoundary sc (lineRead st) then
          (if st.paused then st.filepos else (fgets st).pos) else st.filepos) ∧
    (step sqrt sc [] st).pos
      = (if isBoundary sc (lineRead st) then
          (if st.paused then st.filepos else (fgets st).pos) else (fgets st).pos) := by
  rw [step_nil sqrt sc st hrun]
  obtain ⟨a1, a2, a3, a4, a5, a6⟩ := processLine_stream sqrt sc (fgets st)
  obtain ⟨r, p, f, m, _⟩ := fgets_fields st
  rw [a1, a2, a3, a4, a5, a6, r, p, f, m]
  exact ⟨rfl, rfl, rfl, rfl, rfl, rfl⟩

/-- While no frame boundary is met the file, the bookmark and the flags stay. -/
theorem run_keeps (sqrt : α → α) (sc : Scanf α) (st : State α) (hrun : st.running = true)
    (n : Nat) (hn : ∀ k, k < n → ¬ isBoundary sc (lineRead (run sqrt sc k st))) :
    (run sqrt sc n st).mddata = st.mddata ∧ (run sqrt sc n st).paused = st.paused ∧
    (run sqrt sc n st).running = st.running ∧ (run sqrt sc n st).filepos = st.filepos := by
  induction n with
  | zero => exact ⟨rfl, rfl, rfl, rfl⟩
  | succ n ih =>
    obtain ⟨i1, i2, i3, i4⟩ := ih (fun k hk => hn k (Nat.lt_succ_of_lt hk))
    have hr : (run sqrt sc n st).running = true := by rw [i3]; exact hrun
    obtain ⟨a1, a2, a3, _, a5, _⟩ := step_stream sqrt sc (run sqrt sc n st) hr
    rw [run_succ_last, a1, a2, a3, a5, if_neg (hn n (Nat.lt_succ_self n))]
    exact ⟨i1, i2, i3, i4⟩

/-- After a frame boundary taken while paused, the state reached at the next
frame boundary reads the same lines as the state after the first. -/
theorem replay_same (sqrt : α → α) (sc : Scanf α) (st : State α)
    (hrun : st.running = true) (hp : st.paused = true)
    (hb : isBoundary sc (lineRead st)) (n : Nat)
    (hn : ∀ k, k < n → ¬ isBoundary sc (lineRead (run sqrt sc k (step sqrt sc [] st))))
    (hlast : isBoundary sc (lineRead (run sqrt sc n (step sqrt sc [] st)))) :
    SameStream (run sqrt sc (n + 1) (step sqrt sc [] st)) (step sqrt sc [] st) := by
  obtain ⟨s1, s2, s3, s4, s5, s6⟩ := step_stream sqrt sc st hrun
  rw [if_pos hb, if_pos hp] at s5 s6
  have hrun1 : (step sqrt sc [] st).running = true := by rw [s3]; exact hrun
  obtain ⟨k1, k2, k3, k4⟩ := run_keeps sqrt sc (step sqrt sc [] st) hrun1 n hn
  have hrunn : (run sqrt sc n (step sqrt sc [] st)).running = true := by rw [k3]; exact hrun1
  obtain ⟨t1, t2, t3, t4, t5, t6⟩ :=
    step_stream sqrt sc (run sqrt sc n (step sqrt sc [] st)) hrunn
  have hpn : (run sqrt sc n (step sqrt sc [] st)).paused = true := by rw [k2, s2]; exact hp
  rw [if_pos hlast, if_pos hpn] at t5 t6
  constructor
  · unfold streamOf
    rw [run_succ_last, t1, t2, t3, t5, t6, k1, k2, k3, k4, s5, s6]
  · by_cases hlt : (step sqrt sc [] st).pos < (step sqrt sc [] st).mddata.length
    · right
      rw [run_succ_last, t6, t1, k4, k1, s5]
      rw [s6] at hlt
      exact hlt
    · left
      have hdrop : (step sqrt sc [] st).mddata.drop (step sqrt sc [] st).pos = [] :=
        List.drop_eq_nil_iff.mpr (not_lt.mp hlt)
      have hline1 : lineRead (step sqrt sc [] st) = (step sqrt sc [] st).buffer := by
        unfold lineRead
        rw [(fgets_stream (step sqrt sc [] st)).1, hdrop]
        rfl
      have hn0 : n = 0 := by
        by_contra hne
        have h0 := hn 0 (Nat.pos_of_ne_zero hne)
        apply h0
        change isBoundary sc (lineRead (step sqrt sc [] st))
        rw [hline1, s4]
        exact hb
      subst hn0
      rw [run_succ_last, t4]
      exact hline1

end Replay

/-- C9: in a running loop, an iteration (without key presses) on a
frame-boundary line taken while paused leaves the bookmark `filepos` as it is
and puts the stream at the bookmark; from then on, without key presses, if the
next boundary is met after `n` other lines, then after every further `n + 1`
iterations the lines read are the same as after the first, so every frame
displayed while paused is built from the same sequence of lines.  Taken while
not paused, the boundary sets the bookmark to the stream position after the
line. -/
theorem paused_boundary_replays_frame {α : Type} [LinearOrderedField α] [FloorRing α]
    (sqrt : α → α) (sc : Scanf α) (st : State α)
    (hrun : st.running = true) (hb : isBoundary sc (lineRead st)) :
    (st.paused = true →
      (step sqrt sc [] st).filepos = st.filepos ∧
      (step sqrt sc [] st).pos = st.filepos ∧
      ∀ n : Nat,
        (∀ k, k < n → ¬ isBoundary sc (lineRead (run sqrt sc k (step sqrt sc [] st)))) →
        isBoundary sc (lineRead (run sqrt sc n (step sqrt sc [] st))) →
        ∀ j m : Nat,
          linesRead sqrt sc m (run sqrt sc (j * (n + 1)) (step sqrt sc [] st))
            = linesRead sqrt sc m (step sqrt sc [] st)) ∧
    (st.paused = false →
      (step sqrt sc [] st).filepos = (fgets st).pos ∧
      (step sqrt sc [] st).pos = (fgets st).pos) := by
  obtain ⟨s1, s2, s3, s4, s5, s6⟩ := step_stream sqrt sc st hrun
  rw [if_pos hb] at s5 s6
  constructor
  · intro hp
    rw [if_pos hp] at s5 s6
    refine ⟨s5, s6, ?_⟩
    intro n hn hlast j m
    have hsame := replay_same sqrt sc st hrun hp hb n hn hlast
    have hall : ∀ j : Nat,
        SameStream (run sqrt sc (j * (n + 1)) (step sqrt sc [] st)) (step sqrt sc [] st) := by
      intro j
      induction j with
      | zero =>
        rw [Nat.zero_mul]
        exact ⟨rfl, Or.inl rfl⟩
      | succ j ih =>
        have e : (j + 1) * (n + 1) = j * (n + 1) + (n + 1) := Nat.succ_mul j (n + 1)
        rw [e, run_add]
        have h1 := run_same sqrt sc (j * (n + 1)) _ _ hsame
        obtain ⟨a, b⟩ := h1
        obtain ⟨c, d⟩ := ih
        refine ⟨a.trans c, ?_⟩
        rcases b with b | b
        · rcases d with d | d
          · exact Or.inl (b.trans d)
          · right
            have hpos : (run sqrt sc (j * (n + 1))
                (run sqrt sc (n + 1) (step sqrt sc [] st))).pos
                = (run sqrt sc (j * (n + 1)) (step sqrt sc [] st)).pos := by
              have := a
              unfold streamOf at this
              simp only [Prod.mk.injEq] at this
              exact this.2.1
            have hmd : (run sqrt sc (j * (n + 1))
                (run sqrt sc (n + 1) (step sqrt sc [] st))).mddata
                = (run sqrt sc (j * (n + 1)) (step sqrt sc [] st)).mddata := by
              have := a
              unfold streamOf at this
              simp only [Prod.mk.injEq] at this
              exact this.1
            rw [hpos, hmd]
            exact d
        · exact Or.inr b
    exact linesRead_same sqrt sc m _ _ (hall j)
  · intro hp
    have hp' : ¬ st.paused = true := by rw [hp]; decide
    rw [if_neg hp'] at s5 s6
    exact ⟨s5, s6⟩

/-- C9 on the data file of a blank line and a particle line, paused at the
start: the boundary leaves the bookmark at 0 and the stream at the bookmark,
and the next iterations read the blank line again and again. -/
theorem paused_boundary_replays_frame_witness :
    (step Real.sqrt (plainScanf ℝ) [] (pausedState Real.sqrt "\n1 2 3\n".toList)).filepos
      = (pausedState Real.sqrt "\n1 2 3\n".toList).filepos ∧
    (step Real.sqrt (plainScanf ℝ) [] (pausedState Real.sqrt "\n1 2 3\n".toList)).pos
      = (pausedState Real.sqrt "\n1 2 3\n".toList).filepos ∧
    ∀ j m : Nat,
      linesRead Real.sqrt (plainScanf ℝ) m
          (run Real.sqrt (plainScanf ℝ) (j * (0 + 1))
            (step Real.sqrt (plainScanf ℝ) [] (pausedState Real.sqrt "\n1 2 3\n".toList)))
        = linesRead Real.sqrt (plainScanf ℝ) m
            (step Real.sqrt (plainScanf ℝ) [] (pausedState Real.sqrt "\n1 2 3\n".toList)) :=
  have h := (paused_boundary_replays_frame Real.sqrt (plainScanf ℝ)
    (pausedState Real.sqrt "\n1 2 3\n".toList) rfl (by decide)).1 rfl
  ⟨h.1, h.2.1, h.2.2 0 (fun k hk => absurd hk (Nat.not_lt_zero k)) (by decide)⟩

/-! ### The z-buffer as a running minimum -/

section ZBufferMinimum

variable {α : Type} [LinearOrderedField α] [FloorRing α]

/-- Folding a step that lowers a value to at most each of its candidates, and
leaves it either unchanged or equal to a candidate, does the same for the
candidates of all elements of the list. -/
theorem foldl_min_step {S B : Type} (val : S → α) (f : S → B → S) (cand : B → α → Prop)
    (h : ∀ s b, val (f s b) ≤ val s ∧ (∀ c, cand b c → val (f s b) ≤ c) ∧
      (val (f s b) = val s ∨ cand b (val (f s b))))
    (l : List B) (s : S) :
    val (l.foldl f s) ≤ val s ∧
    (∀ b, b ∈ l → ∀ c, cand b c → val (l.foldl f s) ≤ c) ∧
    (val (l.foldl f s) = val s ∨ ∃ b, b ∈ l ∧ cand b (val (l.foldl f s))) := by
  induction l generalizing s with
  | nil => exact ⟨le_refl _, fun b hb => absurd hb (List.not_mem_nil b), Or.inl rfl⟩
  | cons a l ih =>
    obtain ⟨i1, i2, i3⟩ := ih (f s a)
    obtain ⟨h1, h2, h3⟩ := h s a
    rw [List.foldl_cons]
    refine ⟨le_trans i1 h1, ?_, ?_⟩
    · intro b hb c hc
      rcases List.mem_cons.mp hb with e | hb
      · subst e
        exact le_trans i1 (h2 c hc)
      · exact i2 b hb c hc
    · rcases i3 with e | ⟨b, hb, hc⟩
      · rcases h3 with e' | hc
        · exact Or.inl (e.trans e')
        · right
          refine ⟨a, List.mem_cons_self _ _, ?_⟩
          rw [e]; exact hc
      · exact Or.inr ⟨b, List.mem_cons_of_mem _ hb, hc⟩

theorem drawPoint_min_step (sqrt : α → α) (L : α) (fade : Int) (c : Colour) (depth : α)
    (xs ys s : Int) (k : Int) (scr : Screen α) (ij : Int × Int) :
    (drawPoint sqrt L fade c depth xs ys s scr ij.1 ij.2).zbuffer k ≤ scr.zbuffer k ∧
    (∀ v, (¬ (ij.1 * ij.1 + ij.2 * ij.2 > s * s) ∧ boundsTest (xs + ij.1) (ys + ij.2) ∧
        WIDTH * (xs + ij.1) + (ys + ij.2) = k ∧
        ∃ l, lighting sqrt s ij.1 ij.2 = some l ∧ v = depth - l) →
      (drawPoint sqrt L fade c depth xs ys s scr ij.1 ij.2).zbuffer k ≤ v) ∧
    ((drawPoint sqrt L fade c depth xs ys s scr ij.1 ij.2).zbuffer k = scr.zbuffer k ∨
      (¬ (ij.1 * ij.1 + ij.2 * ij.2 > s * s) ∧ boundsTest (xs + ij.1) (ys + ij.2) ∧
        WIDTH * (xs + ij.1) + (ys + ij.2) = k ∧
        ∃ l, lighting sqrt s ij.1 ij.2 = some l ∧
          (drawPoint sqrt L fade c depth xs ys s scr ij.1 ij.2).zbuffer k = depth - l)) := by
  obtain ⟨i, j⟩ := ij
  simp only []
  unfold drawPoint
  by_cases hc : i * i + j * j > s * s
  · rw [if_pos hc]
    exact ⟨le_refl _, fun v hv => absurd hc hv.1, Or.inl rfl⟩
  · rw [if_neg hc]
    cases hl : lighting sqrt s i j with
    | none =>
      refine ⟨le_refl _, ?_, Or.inl rfl⟩
      rintro v ⟨_, _, _, l, h, _⟩
      cases h
    | some l =>
      simp only []
      by_cases hb : boundsTest (xs + i) (ys + j)
      · rw [if_pos hb]
        by_cases hz : scr.zbuffer (WIDTH * (xs + i) + (ys + j)) > depth - l
        · rw [if_pos hz]
          simp only []
          by_cases hk : WIDTH * (xs + i) + (ys + j) = k
          · subst hk
            rw [Function.update_same]
            refine ⟨le_of_lt hz, ?_, Or.inr ⟨hc, hb, rfl, l, rfl, rfl⟩⟩
            rintro v ⟨_, _, _, l', h, rfl⟩
            cases h
            exact le_refl _
          · rw [Function.update_noteq (Ne.symm hk)]
            exact ⟨le_refl _, fun v hv => absurd hv.2.2.1 hk, Or.inl rfl⟩
        · rw [if_neg hz]
          refine ⟨le_refl _, ?_, Or.inl rfl⟩
          rintro v ⟨_, _, hk, l', h, rfl⟩
          cases h
          rw [← hk]
          exact not_lt.mp hz
      · rw [if_neg hb]
        exact ⟨le_refl _, fun v hv => absurd hv.2.1 hb, Or.inl rfl⟩

theorem drawParticle_min_step (sqrt : α → α) (cam : Camera α) (L : α) (fade : Int)
    (k : Int) (scr : Screen α) (p : Particle α) :
    (drawParticle sqrt cam L fade scr p).zbuffer k ≤ scr.zbuffer k ∧
    (∀ c, IsCandidate sqrt cam p k c → (drawParticle sqrt cam L fade scr p).zbuffer k ≤ c) ∧
    ((drawParticle sqrt cam L fade scr p).zbuffer k = scr.zbuffer k ∨
      IsCandidate sqrt cam p k ((drawParticle sqrt cam L fade scr p).zbuffer k)) := by
  unfold drawParticle
  simp only []
  by_cases hd : particleDepth cam p.position > 1
  · rw [if_pos hd]
    unfold drawDisk
    rw [foldl_nested _ _
      (fun scr i j => drawPoint sqrt L fade p.c (particleDepth cam p.position)
        (particleXs cam p.position) (particleYs cam p.position)
        (particleS cam p.position p.R) scr i j)]
    obtain ⟨h1, h2, h3⟩ := foldl_min_step (fun scr : Screen α => scr.zbuffer k)
      (fun scr (ab : Int × Int) => drawPoint sqrt L fade p.c (particleDepth cam p.position)
        (particleXs cam p.position) (particleYs cam p.position)
        (particleS cam p.position p.R) scr ab.1 ab.2)
      (fun (ab : Int × Int) v =>
        ¬ (ab.1 * ab.1 + ab.2 * ab.2 > particleS cam p.position p.R * particleS cam p.position p.R)
        ∧ boundsTest (particleXs cam p.position + ab.1) (particleYs cam p.position + ab.2)
        ∧ WIDTH * (particleXs cam p.position + ab.1) + (particleYs cam p.position + ab.2) = k
        ∧ ∃ l, lighting sqrt (particleS cam p.position p.R) ab.1 ab.2 = some l ∧
            v = particleDepth cam p.position - l)
      (fun s b => drawPoint_min_step sqrt L fade p.c (particleDepth cam p.position)
        (particleXs cam p.position) (particleYs cam p.position)
        (particleS cam p.position p.R) k s b)
      (intRange (-(particleS cam p.position p.R)) (particleS cam p.position p.R) ×ˢ
        intRange (-(particleS cam p.position p.R)) (particleS cam p.position p.R)) scr
    refine ⟨h1, ?_, ?_⟩
    · rintro c ⟨_, i, j, l, hi, hj, hc, hb, hk, hl, rfl⟩
      exact h2 (i, j) (List.mem_product.mpr ⟨hi, hj⟩) _ ⟨hc, hb, hk, l, hl, rfl⟩
    · rcases h3 with e | ⟨⟨i, j⟩, hm, hc, hb, hk, l, hl, hv⟩
      · exact Or.inl e
      · right
        obtain ⟨hi, hj⟩ := List.mem_product.mp hm
        exact ⟨hd, i, j, l, hi, hj, hc, hb, hk, hl, hv⟩
  · rw [if_neg hd]
    exact ⟨le_refl _, fun c hc => absurd hc.1 hd, Or.inl rfl⟩

/-- After a sequence of particles has been drawn, a z-buffer cell holds the
least of its former value and the candidates of the particles for it. -/
theorem drawParticles_least (sqrt : α → α) (cam : Camera α) (L : α) (fade : Int)
    (k : Int) (scr : Screen α) (ps : List (Particle α)) :
    IsLeast {c | c = scr.zbuffer k ∨ ∃ p, p ∈ ps ∧ IsCandidate sqrt cam p k c}
      ((drawParticles sqrt cam L fade scr ps).zbuffer k) := by
  obtain ⟨h1, h2, h3⟩ := foldl_min_step (fun scr : Screen α => scr.zbuffer k)
    (drawParticle sqrt cam L fade) (fun p c => IsCandidate sqrt cam p k c)
    (fun s p => drawParticle_min_step sqrt cam L fade k s p) ps scr
  constructor
  · exact h3
  · rintro c (rfl | ⟨p, hp, hc⟩)
    · exact h1
    · exact h2 p hp c hc

theorem clearScreen_cell (background : Int) (L : α) (scr : Screen α) (k : Int)
    (hk : 0 ≤ k ∧ k < WIDTH * HEIGHT) :
    (clearScreen background L scr).zbuffer k = (5 / 2) * L := by
  have hW : WIDTH = 600 := rfl
  have hH : HEIGHT = 600 := rfl
  rw [hW, hH] at hk
  have h := (clearScreen_spec background L scr (k / 600) (k % 600)
    (by rw [hW]; omega) (by rw [hH]; omega)).2
  have e : WIDTH * (k / 600) + k % 600 = k := by rw [hW]; omega
  rw [e] at h
  exact h

end ZBufferMinimum

/-- C10: after the clearing loops and the drawing of any sequence of particles
under one camera, every cell `k` of the z-buffer (`0 ≤ k < WIDTH*HEIGHT`)
holds the minimum of the reset value `2.5*L` and the scalars
`depth - lighting` of all disk points of those particles that target a pixel
with index `k` and pass the bounds test (a disk point whose light factor is a
NaN has no scalar); drawing a particle never raises a cell; and the final
z-buffer is the same for every order of the particles. -/
theorem zbuffer_holds_minimum {α : Type} [LinearOrderedField α] [FloorRing α]
    (sqrt : α → α) (cam : Camera α) (L : α) (fade : Int) (background : Int)
    (scr0 : Screen α) (ps : List (Particle α)) (k : Int)
    (hk : 0 ≤ k ∧ k < WIDTH * HEIGHT) :
    IsLeast {c | c = (5 / 2) * L ∨ ∃ p, p ∈ ps ∧ IsCandidate sqrt cam p k c}
      ((drawParticles sqrt cam L fade (clearScreen background L scr0) ps).zbuffer k) ∧
    (∀ (scr : Screen α) (p : Particle α) (k' : Int),
      (drawParticle sqrt cam L fade scr p).zbuffer k' ≤ scr.zbuffer k') ∧
    (∀ ps' : List (Particle α), ps.Perm ps' →
      (drawParticles sqrt cam L fade (clearScreen background L scr0) ps').zbuffer
        = (drawParticles sqrt cam L fade (clearScreen background L scr0) ps).zbuffer) := by
  refine ⟨?_, ?_, ?_⟩
  · have h := drawParticles_least sqrt cam L fade k (clearScreen background L scr0) ps
    rw [clearScreen_cell background L scr0 k hk] at h
    exact h
  · intro scr p k'
    exact (drawParticle_min_step sqrt cam L fade k' scr p).1
  · intro ps' hperm
    funext k'
    have h1 := drawParticles_least sqrt cam L fade k' (clearScreen background L scr0) ps
    have h2 := drawParticles_least sqrt cam L fade k' (clearScreen background L scr0) ps'
    have hset : {c | c = (clearScreen background L scr0).zbuffer k' ∨
          ∃ p, p ∈ ps' ∧ IsCandidate sqrt cam p k' c}
        = {c | c = (clearScreen background L scr0).zbuffer k' ∨
          ∃ p, p ∈ ps ∧ IsCandidate sqrt cam p k' c} := by
      ext c
      simp only [Set.mem_setOf_eq]
      constructor
      · rintro (e | ⟨p, hp, hc⟩)
        · exact Or.inl e
        · exact Or.inr ⟨p, hperm.mem_iff.mpr hp, hc⟩
      · rintro (e | ⟨p, hp, hc⟩)
        · exact Or.inl e
        · exact Or.inr ⟨p, hperm.mem_iff.mp hp, hc⟩
    rw [hset] at h2
    exact h2.unique h1

/-- C10 for the two particles of `nearParticle` and `farParticle` under the
default camera, at the cell of pixel `(270, 300)`. -/
theorem zbuffer_holds_minimum_witness :
    IsLeast {c : ℝ | c = (5 / 2) * 40 ∨
        ∃ p, p ∈ [nearParticle, farParticle] ∧
          IsCandidate Real.sqrt defaultCamera p (WIDTH * 270 + 300) c}
      ((drawParticles Real.sqrt defaultCamera 40 1 (clearScreen 0 40 zeroScreen)
        [nearParticle, farParticle]).zbuffer (WIDTH * 270 + 300)) :=
  (zbuffer_holds_minimum Real.sqrt defaultCamera 40 1 0 zeroScreen
    [nearParticle, farParticle] (WIDTH * 270 + 300) (by decide)).1

/-- C11: for a target pixel `(x, y)` that passes the bounds test, the z-buffer
index `WIDTH*x + y` lies in `0 .. WIDTH*HEIGHT - 1`, no other pixel that
passes the test has the same index, and the index is one of those the
clearing loops write: it is `WIDTH*i + j` for an `i` and a `j` the two loops
run through, and after the loops the cell holds the reset value. -/
theorem zbuffer_index_within_array {α : Type} [LinearOrderedField α] [FloorRing α]
    (x y : Int) (h : boundsTest x y) :
    (0 ≤ WIDTH * x + y ∧ WIDTH * x + y ≤ WIDTH * HEIGHT - 1) ∧
    (∀ x' y' : Int, boundsTest x' y' → (x', y') ≠ (x, y) →
      WIDTH * x' + y' ≠ WIDTH * x + y) ∧
    (∃ i j : Int, i ∈ intRange 0 (WIDTH - 1) ∧ j ∈ intRange 0 (HEIGHT - 1) ∧
      WIDTH * i + j = WIDTH * x + y) ∧
    (∀ (background : Int) (L : α) (scr : Screen α),
      (clearScreen background L scr).zbuffer (WIDTH * x + y) = (5 / 2) * L) := by
  have hb := (boundsTest_iff x y).mp h
  have hW : WIDTH = 600 := rfl
  have hH : HEIGHT = 600 := rfl
  refine ⟨?_, ?_, ?_, ?_⟩
  · rw [hW, hH] at hb ⊢
    omega
  · intro x' y' h' hne e
    obtain ⟨e1, e2⟩ := index_injective x' y' x y h' h e
    exact hne (by rw [e1, e2])
  · refine ⟨x, y, ?_, ?_, rfl⟩
    · rw [mem_intRange]
      rw [hW] at hb ⊢
      omega
    · rw [mem_intRange]
      rw [hH] at hb ⊢
      omega
  · intro background L scr
    exact (clearScreen_spec background L scr x y ⟨le_of_lt hb.1.1, hb.1.2⟩
      ⟨le_of_lt hb.2.1, hb.2.2⟩).2

/-- C11 at the pixel `(599, 599)`, the one with the greatest index. -/
theorem zbuffer_index_within_array_witness :
    (0 ≤ WIDTH * 599 + 599 ∧ WIDTH * 599 + 599 ≤ WIDTH * HEIGHT - 1) ∧
    (∀ x' y' : Int, boundsTest x' y' → (x', y') ≠ (599, 599) →
      WIDTH * x' + y' ≠ WIDTH * 599 + 599) ∧
    (∃ i j : Int, i ∈ intRange 0 (WIDTH - 1) ∧ j ∈ intRange 0 (HEIGHT - 1) ∧
      WIDTH * i + j = WIDTH * 599 + 599) ∧
    (∀ (background : Int) (L : ℝ) (scr : Screen ℝ),
      (clearScreen background L scr).zbuffer (WIDTH * 599 + 599) = (5 / 2) * L) :=
  zbuffer_index_within_array 599 599 (by decide)

/-! ### The divisors of `setcamera` -/

section CameraDivisors

theorem modulus_eq_zero_iff (v : Vec3 ℝ) :
    modulus Real.sqrt v = 0 ↔ v.x = 0 ∧ v.y = 0 ∧ v.z = 0 := by
  unfold modulus
  rw [Real.sqrt_eq_zero (dot_self_nonneg v)]
  constructor
  · intro h
    by_contra hne
    have hpos := dot_self_pos v (by tauto)
    rw [h] at hpos
    exact lt_irrefl _ hpos
  · rintro ⟨hx, hy, hz⟩
    unfold dot
    rw [hx, hy, hz]
    ring

/-- Over the reals the direction that `setcamera` stores is always a unit
vector: the normalised difference, or `(-1, 0, 0)` when `location = aim`. -/
theorem cameraDirection_unit (location aim : Vec3 ℝ) :
    dot (cameraDirection Real.sqrt location aim) (cameraDirection Real.sqrt location aim) = 1 := by
  unfold cameraDirection
  simp only []
  by_cases h0 : modulus Real.sqrt
      (⟨aim.x - location.x, aim.y - location.y, aim.z - location.z⟩ : Vec3 ℝ) = 0
  · rw [if_pos h0]
    obtain ⟨_, hy, hz⟩ := (modulus_eq_zero_iff _).mp h0
    simp only [] at hy hz
    unfold dot
    simp only []
    rw [hy, hz]
    ring
  · rw [if_neg h0]
    have hpos : 0 < dot (⟨aim.x - location.x, aim.y - location.y, aim.z - location.z⟩ : Vec3 ℝ)
        ⟨aim.x - location.x, aim.y - location.y, aim.z - location.z⟩ := by
      rcases lt_or_eq_of_le (dot_self_nonneg
        (⟨aim.x - location.x, aim.y - location.y, aim.z - location.z⟩ : Vec3 ℝ)) with h | h
      · exact h
      · exfalso
        apply h0
        unfold modulus
        rw [← h, Real.sqrt_zero]
    refine (dot_div_div
      (⟨aim.x - location.x, aim.y - location.y, aim.z - location.z⟩ : Vec3 ℝ)
      ⟨aim.x - location.x, aim.y - location.y, aim.z - location.z⟩ _ _).trans ?_
    have : modulus Real.sqrt (⟨aim.x - location.x, aim.y - location.y, aim.z - location.z⟩ : Vec3 ℝ)
        * modulus Real.sqrt (⟨aim.x - location.x, aim.y - location.y, aim.z - location.z⟩ : Vec3 ℝ)
        = dot (⟨aim.x - location.x, aim.y - location.y, aim.z - location.z⟩ : Vec3 ℝ)
          ⟨aim.x - location.x, aim.y - location.y, aim.z - location.z⟩ :=
      Real.mul_self_sqrt (le_of_lt hpos)
    rw [this]
    exact div_self (ne_of_gt hpos)

/-- The vector `screenx` before it is resized: the cross product when that is
not the zero vector, `(0, 1, 0)` when it is. -/
theorem cameraScreenx_cases (location aim zenith : Vec3 ℝ) :
    (cross (cameraDirection Real.sqrt location aim) zenith ≠ ⟨0, 0, 0⟩ ∧
      cameraScreenx Real.sqrt location aim zenith
        = cross (cameraDirection Real.sqrt location aim) zenith) ∨
    (cross (cameraDirection Real.sqrt location aim) zenith = ⟨0, 0, 0⟩ ∧
      cameraScreenx Real.sqrt location aim zenith = ⟨0, 1, 0⟩) := by
  unfold cameraScreenx
  simp only []
  by_cases h0 : modulus Real.sqrt (cross (cameraDirection Real.sqrt location aim) zenith) = 0
  · right
    rw [if_pos h0]
    obtain ⟨hx, hy, hz⟩ := (modulus_eq_zero_iff _).mp h0
    have hc : cross (cameraDirection Real.sqrt location aim) zenith = ⟨0, 0, 0⟩ := by
      cases hcr : cross (cameraDirection Real.sqrt location aim) zenith with
      | mk a b c =>
        rw [hcr] at hx hy hz
        simp only [] at hx hy hz
        rw [hx, hy, hz]
    refine ⟨hc, ?_⟩
    rw [hc]
  · left
    rw [if_neg h0]
    refine ⟨?_, rfl⟩
    intro hc
    apply h0
    rw [hc, modulus_eq_zero_iff]
    exact ⟨rfl, rfl, rfl⟩

end CameraDivisors

/-- C12: over the reals, for every location, aim and zenith, the modulus by
which `setcamera` divides `screenx` (that of `cameraScreenx`) is not zero, and
the modulus by which it divides `screeny` (that of `cameraScreeny`) is zero
exactly when `cross(direction, zenith)` is the zero
vector and the `x` and `z` components of the direction are both zero; the
direction is then `(0, 1, 0)` or `(0, -1, 0)`. -/
theorem setcamera_divisors (location aim zenith : Vec3 ℝ) :
    (setcamera Real.sqrt location aim zenith).screenx
      = ⟨(cameraScreenx Real.sqrt location aim zenith).x
            / modulus Real.sqrt (cameraScreenx Real.sqrt location aim zenith),
          (cameraScreenx Real.sqrt location aim zenith).y
            / modulus Real.sqrt (cameraScreenx Real.sqrt location aim zenith),
          (cameraScreenx Real.sqrt location aim zenith).z
            / modulus Real.sqrt (cameraScreenx Real.sqrt location aim zenith)⟩ ∧
    (setcamera Real.sqrt location aim zenith).screeny
      = ⟨(cameraScreeny Real.sqrt location aim zenith).x
            / modulus Real.sqrt (cameraScreeny Real.sqrt location aim zenith),
          (cameraScreeny Real.sqrt location aim zenith).y
            / modulus Real.sqrt (cameraScreeny Real.sqrt location aim zenith),
          (cameraScreeny Real.sqrt location aim zenith).z
            / modulus Real.sqrt (cameraScreeny Real.sqrt location aim zenith)⟩ ∧
    modulus Real.sqrt (cameraScreenx Real.sqrt location aim zenith) ≠ 0 ∧
    (modulus Real.sqrt (cameraScreeny Real.sqrt location aim zenith) = 0 ↔
      (cross (cameraDirection Real.sqrt location aim) zenith = ⟨0, 0, 0⟩ ∧
        (cameraDirection Real.sqrt location aim).x = 0 ∧
        (cameraDirection Real.sqrt location aim).z = 0)) ∧
    ((cameraDirection Real.sqrt location aim).x = 0 ∧
        (cameraDirection Real.sqrt location aim).z = 0 →
      cameraDirection Real.sqrt location aim = ⟨0, 1, 0⟩ ∨
      cameraDirection Real.sqrt location aim = ⟨0, -1, 0⟩) := by
  have hunit := cameraDirection_unit location aim
  refine ⟨rfl, rfl, ?_, ?_, ?_⟩
  · rcases cameraScreenx_cases location aim zenith with ⟨hne, hsx⟩ | ⟨_, hsx⟩
    · rw [hsx]
      intro h0
      apply hne
      obtain ⟨hx, hy, hz⟩ := (modulus_eq_zero_iff _).mp h0
      cases hcr : cross (cameraDirection Real.sqrt location aim) zenith with
      | mk a b c =>
        rw [hcr] at hx hy hz
        simp only [] at hx hy hz
        rw [hx, hy, hz]
    · rw [hsx]
      intro h
      rw [modulus_eq_zero_iff] at h
      exact one_ne_zero h.2.1
  · rcases cameraScreenx_cases location aim zenith with ⟨hne, hsx⟩ | ⟨hc, hsx⟩
    · constructor
      · intro h0
        exfalso
        have hzero : dot (cameraScreeny Real.sqrt location aim zenith)
            (cameraScreeny Real.sqrt location aim zenith) = 0 := by
          obtain ⟨hx, hy, hz⟩ := (modulus_eq_zero_iff _).mp h0
          unfold dot
          rw [hx, hy, hz]
          ring
        unfold cameraScreeny at hzero
        rw [dot_cross_self, hunit, hsx, dot_cross_left] at hzero
        have hpos := dot_self_pos (cross (cameraDirection Real.sqrt location aim) zenith)
          ((vec3_ne_iff _ _).mp hne)
        linarith
      · intro h
        exact absurd h.1 hne
    · unfold cameraScreeny
      rw [hsx, modulus_eq_zero_iff]
      simp only [cross]
      constructor
      · rintro ⟨h1, _, h3⟩
        refine ⟨hc, ?_, ?_⟩
        · linarith
        · linarith
      · rintro ⟨_, hx, hz⟩
        rw [hx, hz]
        refine ⟨by ring, by ring, by ring⟩
  · rintro ⟨hx, hz⟩
    cases hd : cameraDirection Real.sqrt location aim with
    | mk a b c =>
      rw [hd] at hx hz hunit
      simp only [] at hx hz
      unfold dot at hunit
      simp only [] at hunit
      rw [hx, hz] at hunit
      have hb : (b - 1) * (b + 1) = 0 := by linarith
      rcases mul_eq_zero.mp hb with h | h
      · left
        rw [hx, hz, show b = 1 by linarith]
      · right
        rw [hx, hz, show b = -1 by linarith]

/-- C12 at location the origin, aim `(0, 1, 0)`, zenith `(0, 1, 0)`: the
direction is `(0, 1, 0)`, its cross product with the zenith is zero, and the
modulus by which `screeny` is divided is zero. -/
theorem setcamera_divisors_witness :
    modulus Real.sqrt (cameraScreenx Real.sqrt ⟨0, 0, 0⟩ ⟨0, 1, 0⟩ ⟨0, 1, 0⟩) ≠ 0 ∧
    modulus Real.sqrt (cameraScreeny Real.sqrt ⟨0, 0, 0⟩ ⟨0, 1, 0⟩ ⟨0, 1, 0⟩) = 0 := by
  have hd : cameraDirection Real.sqrt (⟨0, 0, 0⟩ : Vec3 ℝ) ⟨0, 1, 0⟩ = ⟨0, 1, 0⟩ := by
    unfold cameraDirection modulus dot
    norm_num
  have h := setcamera_divisors ⟨0, 0, 0⟩ ⟨0, 1, 0⟩ ⟨0, 1, 0⟩
  refine ⟨h.2.2.1, h.2.2.2.1.mpr ?_⟩
  rw [hd]
  refine ⟨?_, rfl, rfl⟩
  unfold cross
  norm_num

end Minipunto
